import Mathlib

set_option autoImplicit false
set_option linter.unusedVariables false

/-!
Shallow embedding of the opcua-turbo client layer: the type-metadata cache
(`src/opcua/cache.py`), the tree navigator
(`src/src/opcua/navigation/navigator.py`), value decoding
(`src/opcua/parser.py`), type conversion
(`src/src/opcua/core/type_conversion.py`) and the batch writer
(`src/src/opcua/client/writer.py`).

Python dictionaries (and `OrderedDict`s) are modelled as association lists in
insertion order: assigning to an existing key replaces the value in place,
assigning to a fresh key appends at the end.  Protocol reads that the source
wraps in try/except are modelled as total functions over an address-space
snapshot, with `Option` marking reads the source treats as failed/absent.
-/

namespace Opcua

/-- Python dict assignment `m[k] = v`: replace in place if the key is
present, otherwise append at the end. -/
def dictInsert {K V : Type} [DecidableEq K] (m : List (K × V)) (k : K) (v : V) :
    List (K × V) :=
  match m with
  | [] => [(k, v)]
  | (k', v') :: rest =>
    if k' = k then (k, v) :: rest else (k', v') :: dictInsert rest k v

/-- Python `m.get(k)`: value of the first entry with key `k`, if any. -/
def dictGet {K V : Type} [DecidableEq K] (m : List (K × V)) (k : K) : Option V :=
  match m with
  | [] => none
  | (k', v') :: rest => if k' = k then some v' else dictGet rest k

/-- Remove the (first) entry with key `k`, if present. -/
def dictErase {K V : Type} [DecidableEq K] (m : List (K × V)) (k : K) :
    List (K × V) :=
  match m with
  | [] => []
  | (k', v') :: rest =>
    if k' = k then rest else (k', v') :: dictErase rest k

/-- `OrderedDict.move_to_end(k)`: remove the entry with key `k` and re-append
it at the most-recent end (identity if the key is absent; the source only
calls it on present keys). -/
def odMoveToEnd {K V : Type} [DecidableEq K] (m : List (K × V)) (k : K) :
    List (K × V) :=
  match dictGet m k with
  | none => m
  | some v => dictErase m k ++ [(k, v)]

/-! ## TypeCache (`src/opcua/cache.py`)

The two `OrderedDict` keyspaces are association lists whose order is the
recency order: front = least recently used, back = most recently used.
`popitem(last=False)` is `List.tail`; when `max_size = 0` a `set` on an empty
keyspace makes CPython raise `KeyError` inside `popitem`, so the theorems
below assume `1 ≤ max_size`. -/

structure TypeCache (A : Type) where
  datatype_definitions : List (String × A)
  field_names : List (String × List String)
  max_size : Nat
  hits : Nat
  misses : Nat

def TypeCache.init (A : Type) (maxSize : Nat) : TypeCache A :=
  { datatype_definitions := [], field_names := [], max_size := maxSize,
    hits := 0, misses := 0 }

/-- `_evict_if_needed`: drop the least-recently-used (front) entry when the
keyspace has reached `max_size`. -/
def evict_if_needed {V : Type} (cache : List (String × V)) (maxSize : Nat) :
    List (String × V) :=
  if maxSize ≤ cache.length then cache.tail else cache

/-- Generic keyspace `get`: a hit moves the key to the most-recent end. -/
def ksGet {V : Type} (m : List (String × V)) (k : String) :
    Option V × List (String × V) :=
  match dictGet m k with
  | some v => (some v, odMoveToEnd m k)
  | none => (none, m)

/-- Generic keyspace `set`: evict if at capacity, then assign and move the
key to the most-recent end. -/
def ksSet {V : Type} (m : List (String × V)) (maxSize : Nat) (k : String)
    (v : V) : List (String × V) :=
  odMoveToEnd (dictInsert (evict_if_needed m maxSize) k v) k

def TypeCache.get_definition {A : Type} (c : TypeCache A) (k : String) :
    Option A × TypeCache A :=
  match ksGet c.datatype_definitions k with
  | (some v, m) =>
    (some v, { c with datatype_definitions := m, hits := c.hits + 1 })
  | (none, m) =>
    (none, { c with datatype_definitions := m, misses := c.misses + 1 })

def TypeCache.set_definition {A : Type} (c : TypeCache A) (k : String)
    (v : A) : TypeCache A :=
  { c with datatype_definitions := ksSet c.datatype_definitions c.max_size k v }

def TypeCache.get_field_names {A : Type} (c : TypeCache A) (k : String) :
    Option (List String) × TypeCache A :=
  match ksGet c.field_names k with
  | (some v, m) => (some v, { c with field_names := m, hits := c.hits + 1 })
  | (none, m) => (none, { c with field_names := m, misses := c.misses + 1 })

def TypeCache.set_field_names {A : Type} (c : TypeCache A) (k : String)
    (names : List String) : TypeCache A :=
  { c with field_names := ksSet c.field_names c.max_size k names }

def TypeCache.clear {A : Type} (c : TypeCache A) : TypeCache A :=
  { c with
    datatype_definitions := []
    field_names := []
    hits := 0
    misses := 0 }

/-- `get_stats` (the rounded `hit_rate` float is omitted from the model). -/
def TypeCache.get_stats {A : Type} (c : TypeCache A) : List (String × Nat) :=
  [("hits", c.hits), ("misses", c.misses), ("total", c.hits + c.misses),
   ("definitions_cached", c.datatype_definitions.length),
   ("field_names_cached", c.field_names.length)]

/-! ### Recency semantics for the cache

`CacheOp` is the externally visible operation alphabet of `TypeCache`.
`recencyStep` maintains, per keyspace, the step index at which each
currently-cached key was last touched (a hit `get` or a `set`); it never
inspects the order of the keyspace lists, so "the front entry is the
least-recently-used one" is a genuine theorem about the implementation. -/

inductive CacheOp (A : Type) where
  | getDef (k : String)
  | setDef (k : String) (v : A)
  | getFld (k : String)
  | setFld (k : String) (names : List String)
  | clearOp

def applyOp {A : Type} (c : TypeCache A) : CacheOp A → TypeCache A
  | .getDef k => (c.get_definition k).2
  | .setDef k v => c.set_definition k v
  | .getFld k => (c.get_field_names k).2
  | .setFld k ns => c.set_field_names k ns
  | .clearOp => c.clear

structure Recency where
  touchDef : List (String × Nat)
  touchFld : List (String × Nat)
  step : Nat

/-- Record that key `k` was touched at step `s`. -/
def touchBump (t : List (String × Nat)) (k : String) (s : Nat) :
    List (String × Nat) :=
  dictErase t k ++ [(k, s)]

def recencyStep {A : Type} (maxSize : Nat) (c : TypeCache A) (r : Recency) :
    CacheOp A → Recency
  | .getDef k =>
    { r with
      touchDef :=
        if (dictGet c.datatype_definitions k).isSome then
          touchBump r.touchDef k r.step
        else r.touchDef
      step := r.step + 1 }
  | .setDef k _ =>
    { r with
      touchDef :=
        touchBump
          (if maxSize ≤ c.datatype_definitions.length then r.touchDef.tail
           else r.touchDef) k r.step
      step := r.step + 1 }
  | .getFld k =>
    { r with
      touchFld :=
        if (dictGet c.field_names k).isSome then touchBump r.touchFld k r.step
        else r.touchFld
      step := r.step + 1 }
  | .setFld k _ =>
    { r with
      touchFld :=
        touchBump
          (if maxSize ≤ c.field_names.length then r.touchFld.tail
           else r.touchFld) k r.step
      step := r.step + 1 }
  | .clearOp => { touchDef := [], touchFld := [], step := r.step + 1 }

/-- Run a trace of operations from a fresh cache, together with the recency
bookkeeping. -/
def cacheReplay (A : Type) (maxSize : Nat) (ops : List (CacheOp A)) :
    TypeCache A × Recency :=
  ops.foldl (fun p op => (applyOp p.1 op, recencyStep maxSize p.1 p.2 op))
    (TypeCache.init A maxSize, ⟨[], [], 0⟩)

/-- Keyspace invariant: the recency list is aligned with the keyspace, last
touches strictly increase from front to back, and keys are distinct. -/
def KsInv {V : Type} (m : List (String × V)) (t : List (String × Nat))
    (step : Nat) : Prop :=
  t.map Prod.fst = m.map Prod.fst ∧
  (t.map Prod.snd).Chain' (· < ·) ∧
  (∀ x ∈ t.map Prod.snd, x < step) ∧
  (m.map Prod.fst).Nodup

/-- Full invariant of the replayed cache: capacity bounds and per-keyspace
recency alignment. -/
def CacheInv {A : Type} (maxSize : Nat) (c : TypeCache A) (r : Recency) :
    Prop :=
  c.max_size = maxSize ∧
  c.datatype_definitions.length ≤ maxSize ∧
  c.field_names.length ≤ maxSize ∧
  KsInv c.datatype_definitions r.touchDef r.step ∧
  KsInv c.field_names r.touchFld r.step

/-! ## Python values and the address-space snapshot

`PyVal` models the Python runtime values the client passes around.  Floats
are outside the model (no claim depends on them).  `NodeInfo` is one
address-space node as seen through the collaborator contract: names, node
class, ordered children, current value (`Option.none` models a read that
raises), declared data type, `EnumStrings`/`EnumValues` child property,
resolved wire variant type, and whether `write_value` succeeds. -/

inductive PyVal where
  | none
  | bool (b : Bool)
  | int (n : Int)
  | str (s : String)
  | list (xs : List PyVal)
  | dict (entries : List (String × PyVal))
  | obj (attrs : List (String × PyVal))

inductive NodeClass where
  | obj
  | var
  | other
deriving DecidableEq

inductive VariantType where
  | null
  | boolean
  | sbyte
  | byte
  | int16
  | uint16
  | int32
  | uint32
  | int64
  | uint64
  | floatT
  | double
  | stringT
  | dateTime
  | byteString
  | variant
deriving DecidableEq

structure NodeInfo where
  displayName : String := ""
  browseName : String := ""
  nodeClass : NodeClass := NodeClass.other
  children : List Nat := []
  value : Option PyVal := Option.none
  dataType : Option Nat := Option.none
  enumStrings : Option (List String) := Option.none
  vtype : VariantType := VariantType.variant
  writeOk : Bool := true

/-- The protocol client plus a fixed address-space snapshot: `space` reads a
node's attributes by node id, `objectsChildren` is
`client.get_objects_node().get_children()`. -/
structure OpcClient where
  space : Nat → NodeInfo
  objectsChildren : List Nat

/-! ## Navigator (`src/src/opcua/navigation/navigator.py`) -/

/-- `check_child` inside `find_specific_object`: skip a child already in the
visited set, otherwise report it when it is an Object whose display name is
the target.  The gather-then-scan in the source returns the first non-`None`
result in child order, which is `List.findSome?` below. -/
def checkChild (cl : OpcClient) (targetName : String) (visited : List Nat)
    (child : Nat) : Option Nat :=
  if child ∈ visited then Option.none
  else
    let info := cl.space child
    if info.nodeClass = NodeClass.obj ∧ info.displayName = targetName then
      some child
    else Option.none

mutual

/-- `find_specific_object`: depth check, cycle check, self check, one-level
scan of all children, then recursion into each child at `level + 1` with the
shared visited set threaded through. -/
def find_specific_object (cl : OpcClient) (targetName : String) (node : Nat)
    (level maxLevel : Nat) (visited : List Nat) : Option Nat × List Nat :=
  if maxLevel < level then (Option.none, visited)
  else if node ∈ visited then (Option.none, visited)
  else
    let visited1 := node :: visited
    let info := cl.space node
    if info.nodeClass = NodeClass.obj ∧ info.displayName = targetName then
      (some node, visited1)
    else
      match info.children.findSome? (checkChild cl targetName visited1) with
      | some c => (some c, visited1)
      | Option.none =>
        findInChildren cl targetName info.children (level + 1) maxLevel visited1
termination_by (maxLevel + 1 - level, 0)

/-- The `for child in children: result = await find_specific_object(...)`
loop, with the shared visited set threaded left to right. -/
def findInChildren (cl : OpcClient) (targetName : String) (nodes : List Nat)
    (level maxLevel : Nat) (visited : List Nat) : Option Nat × List Nat :=
  match nodes with
  | [] => (Option.none, visited)
  | c :: rest =>
    match find_specific_object cl targetName c level maxLevel visited with
    | (some r, vis) => (some r, vis)
    | (Option.none, vis) => findInChildren cl targetName rest level maxLevel vis
termination_by (maxLevel + 1 - level, nodes.length + 1)

end

/-- Python `path.split('.')` on the character list (single-character
separator `'.'`). -/
def splitDotsAux : List Char → List (List Char)
  | [] => [[]]
  | c :: cs =>
    match splitDotsAux cs with
    | [] => [[c]]
    | g :: gs => if c = '.' then [] :: g :: gs else (c :: g) :: gs

/-- Python `path.split('.')`. -/
def splitDots (s : String) : List String := (splitDotsAux s.data).map String.mk

/-- Python `'.'.join(parts)`. -/
def joinDots : List String → String
  | [] => ""
  | [p] => p
  | p :: rest => p ++ "." ++ joinDots rest

/-- `find_object_by_name`: scan the direct children of the objects container
for a display-name match. -/
def find_object_by_name (cl : OpcClient) (name : String) : Option Nat :=
  cl.objectsChildren.find? (fun c => (cl.space c).displayName == name)

/-- The segment walk of `find_node_by_path`: at each step the first direct
child whose browse name or display name equals the segment wins. -/
def walkSegments (cl : OpcClient) : List String → Nat → Option Nat
  | [], cur => some cur
  | part :: rest, cur =>
    match (cl.space cur).children.find?
        (fun ch => (cl.space ch).browseName == part ||
          (cl.space ch).displayName == part) with
    | some ch => walkSegments cl rest ch
    | Option.none => Option.none

/-- `find_node_by_path`: split on `'.'` (the source keeps empty segments),
resolve the root object by display name, then walk every segment. -/
def find_node_by_path (cl : OpcClient) (path : String)
    (rootObjectName : String) : Option Nat :=
  match find_object_by_name cl rootObjectName with
  | Option.none => Option.none
  | some root => walkSegments cl (splitDots path) root

/-- Nodes reachable from `node` along child references in at most `k`
steps. -/
def reachSet (cl : OpcClient) : Nat → Nat → List Nat
  | node, 0 => [node]
  | node, k + 1 =>
    node :: ((cl.space node).children.flatMap fun c => reachSet cl c k)

/-- Two objects referencing each other: node 0 `root` with child 1, node 1
`T` with child 0 — the cyclic address space of the spec example. -/
def cycClient : OpcClient :=
  ⟨fun n =>
    if n = 0 then
      { displayName := "root", nodeClass := NodeClass.obj, children := [1] }
    else
      { displayName := "T", nodeClass := NodeClass.obj, children := [0] },
   [0]⟩

/-- A root whose child (node 1) has the empty string as browse and display
name; node 1 has itself as child. -/
def emptyNameClient : OpcClient :=
  ⟨fun n =>
    if n = 0 then
      { displayName := "Root", nodeClass := NodeClass.obj, children := [1] }
    else
      { displayName := "", browseName := "", children := [1] },
   [0]⟩

/-- An address space in which every node has the nonempty name `x`. -/
def constNameClient : OpcClient :=
  ⟨fun _ => { displayName := "x", browseName := "x" }, []⟩

/-! ## ValueCodec decode path (`src/opcua/parser.py`)

`get_enum_strings` (the `EnumStrings`/`EnumValues` child-property scan with
its `LocalizedText` extraction) is abstracted into the snapshot as
`NodeInfo.enumStrings`: `Option.none` models "no such property / scan
failed", `some l` the extracted string list.  `str(node.nodeid)` is
modelled as `toString` of the node id. -/

/-- Python truthiness of an optional list (`None` and `[]` are falsy). -/
def pyListTruthy {α : Type} : Option (List α) → Bool
  | some (_ :: _) => true
  | _ => false

def pvIsIntNotBool : PyVal → Bool
  | PyVal.int _ => true
  | _ => false

def pvIntValue : PyVal → Int
  | PyVal.int n => n
  | _ => 0

def pvIsNone : PyVal → Bool
  | PyVal.none => true
  | _ => false

/-- `hasattr(v, '__dict__')`: only extension-object-like values have one. -/
def pvHasDict : PyVal → Bool
  | PyVal.obj _ => true
  | _ => false

/-- Python `(value >> i) & 1`: the arithmetic right shift is floor division
by `2 ^ i` and the two's-complement low-bit mask is the non-negative
remainder mod 2. -/
def pyBit (v : Int) (i : Nat) : Int := (Int.fdiv v ((2 : Int) ^ i)) % 2

/-- `parse_bitmask`: `result[bit_name] = (value >> i) & 1` for each
enumerated name. -/
def parse_bitmask (value : Int) (bitNames : List String) :
    List (String × Int) :=
  bitNames.enum.foldl (fun res p => dictInsert res p.2 (pyBit value p.1)) []

/-- `get_datatype_node` wraps `client.get_node(datatype_id)`, which merely
constructs a node handle for the id. -/
def get_datatype_node (cl : OpcClient) (datatypeId : Nat) : Option Nat :=
  some datatypeId

/-- `get_variable_field_names`: cache lookup under the node's own id, else
collect display names of the node's Variable-class children, caching a
non-empty result. -/
def get_variable_field_names {A : Type} (cl : OpcClient) (node : Nat)
    (cache : TypeCache A) : Option (List String) × TypeCache A :=
  let r := cache.get_field_names (toString node)
  match r.1 with
  | some cached => (some cached, r.2)
  | Option.none =>
    let fieldNames := (cl.space node).children.filterMap fun ch =>
      if (cl.space ch).nodeClass = NodeClass.var then
        some (cl.space ch).displayName
      else Option.none
    if fieldNames ≠ [] then
      (some fieldNames, r.2.set_field_names (toString node) fieldNames)
    else (Option.none, r.2)

/-- `get_structure_fields`: cache lookup under the data-type node's id, else
collect display names of all of its children, caching a non-empty result. -/
def get_structure_fields {A : Type} (cl : OpcClient) (datatypeNode : Nat)
    (cache : TypeCache A) : Option (List String) × TypeCache A :=
  let r := cache.get_field_names (toString datatypeNode)
  match r.1 with
  | some cached => (some cached, r.2)
  | Option.none =>
    let fieldNames :=
      (cl.space datatypeNode).children.map fun ch => (cl.space ch).displayName
    if fieldNames ≠ [] then
      (some fieldNames, r.2.set_field_names (toString datatypeNode) fieldNames)
    else (Option.none, r.2)

/-- `parse_extension_object`: unpack an object's `__dict__` into a dict,
preferring attribute lookup by field name with positional fallback when the
named attribute is `None`. -/
def parse_extension_object (value : PyVal)
    (fieldNames : Option (List String)) : PyVal :=
  match value with
  | PyVal.obj attrs =>
    match fieldNames with
    | some fns =>
      if fns ≠ [] then
        PyVal.dict (fns.enum.foldl (fun res p =>
          let fv0 := match dictGet attrs p.2 with
            | some v => v
            | Option.none => PyVal.none
          let fv := if pvIsNone fv0 = true ∧ p.1 < attrs.length then
              (attrs.map Prod.snd).getD p.1 PyVal.none
            else fv0
          dictInsert res p.2 fv) [])
      else PyVal.dict attrs
    | Option.none => PyVal.dict attrs
  | _ => value

def bracketKey (i : Nat) : String := "[" ++ toString i ++ "]"

/-- The key used when zipping discovered field names with sequence
elements: `field_names[i]` in range, a bracketed index beyond. -/
def zipKey (fns : List String) (i : Nat) : String :=
  if i < fns.length then fns.getD i "" else bracketKey i

/-- The zip loop of `format_value`: `result[field_names[i]] = val` in range,
`result[f"[{i}]"] = val` beyond. -/
def zipFieldValues (fns : List String) (xs : List PyVal) :
    List (String × PyVal) :=
  xs.enum.foldl (fun res p => dictInsert res (zipKey fns p.1) p.2) []

/-- The field-name discovery of `format_value`'s sequence branch: the
node's own Variable children first; when falsy, the children of the
declared data type's node. -/
def discoverFieldNames {A : Type} (cl : OpcClient) (node dataType : Nat)
    (cache : TypeCache A) : Option (List String) × TypeCache A :=
  let r1 := get_variable_field_names cl node cache
  if pyListTruthy r1.1 then r1
  else
    match get_datatype_node cl dataType with
    | some dtn => get_structure_fields cl dtn r1.2
    | Option.none => r1

/-- `format_value`: metadata gate, bitmask branch, sequence branch
(field-name zip / per-element extension decode / positional fallback),
extension-object branch, else identity. -/
def format_value {A : Type} (cl : OpcClient) (node : Nat) (value : PyVal)
    (cache : TypeCache A) : PyVal × TypeCache A :=
  match (cl.space node).dataType with
  | Option.none => (value, cache)
  | some dataType =>
    if pyListTruthy (cl.space node).enumStrings && pvIsIntNotBool value then
      (PyVal.dict ((parse_bitmask (pvIntValue value)
          (((cl.space node).enumStrings).getD [])).map
        fun p => (p.1, PyVal.int p.2)), cache)
    else
      match value with
      | PyVal.list xs =>
        if 0 < xs.length then
          let r := discoverFieldNames cl node dataType cache
          if pyListTruthy r.1 then
            (PyVal.dict (zipFieldValues (r.1.getD []) xs), r.2)
          else if pvHasDict (xs.headD PyVal.none) then
            (PyVal.list (xs.map fun it => parse_extension_object it r.1), r.2)
          else
            (PyVal.dict (xs.enum.map fun p => (bracketKey p.1, p.2)), r.2)
        else (value, cache)
      | PyVal.obj attrs =>
        match get_datatype_node cl dataType with
        | some dtn =>
          let r := get_structure_fields cl dtn cache
          (parse_extension_object (PyVal.obj attrs) r.1, r.2)
        | Option.none => (value, cache)
      | _ => (value, cache)

/-- A node exposing an enumeration list but whose data type cannot be
determined (`read_data_type` fails). -/
def enumNoTypeClient : OpcClient :=
  ⟨fun _ => { enumStrings := some ["run", "fault", "ready"] }, []⟩

/-- A node with a readable data type and the spec's enumeration list. -/
def enumTypedClient : OpcClient :=
  ⟨fun _ => { dataType := some 7, enumStrings := some ["run", "fault", "ready"] },
   []⟩

/-- A variable node (0) whose Variable-class children are named `x`, `y`. -/
def zipClient : OpcClient :=
  ⟨fun n =>
    if n = 0 then { dataType := some 7, children := [1, 2] }
    else if n = 1 then { displayName := "x", nodeClass := NodeClass.var }
    else { displayName := "y", nodeClass := NodeClass.var },
   []⟩

/-! ## Encode path (`src/src/opcua/core/type_conversion.py`) -/

/-- Python truthiness, used by `bool(value)` and `if field_name:`. -/
def pyTruthy : PyVal → Bool
  | PyVal.none => false
  | PyVal.bool b => b
  | PyVal.int n => n != 0
  | PyVal.str s => s != ""
  | PyVal.list xs => !xs.isEmpty
  | PyVal.dict m => !m.isEmpty
  | PyVal.obj _ => true

/-- Crude `str(value)` rendering: only the `str(value)` fallback of
`python_to_variant` consumes it and no claim depends on its exact text. -/
def pyStr : PyVal → String
  | PyVal.none => "None"
  | PyVal.bool true => "True"
  | PyVal.bool false => "False"
  | PyVal.int n => toString n
  | PyVal.str s => s
  | PyVal.list _ => "[...]"
  | PyVal.dict _ => "\x7b...\x7d"
  | PyVal.obj _ => "object"

/-- A wire variant: tagged value.  `ua.Variant(value, type)`. -/
structure Variant where
  vval : PyVal
  vtype : VariantType

/-- The shape-inference chain of `python_to_variant` (the `elif` ladder;
floats are outside the model). -/
def pythonInferVariant (value : PyVal) : Variant :=
  match value with
  | PyVal.bool b => ⟨PyVal.bool b, VariantType.boolean⟩
  | PyVal.int n => ⟨PyVal.int n, VariantType.int32⟩
  | PyVal.str s => ⟨PyVal.str s, VariantType.stringT⟩
  | PyVal.list [] => ⟨PyVal.list [], VariantType.null⟩
  | PyVal.list (x :: tl) =>
    match x with
    | PyVal.bool _ => ⟨PyVal.list (x :: tl), VariantType.boolean⟩
    | PyVal.int _ => ⟨PyVal.list (x :: tl), VariantType.int32⟩
    | PyVal.str _ => ⟨PyVal.list (x :: tl), VariantType.stringT⟩
    | _ => ⟨PyVal.list (x :: tl), VariantType.variant⟩
  | other => ⟨PyVal.str (pyStr other), VariantType.stringT⟩

/-- `python_to_variant`: `None` maps to the Null variant; a preferred
non-generic type wraps the value verbatim; otherwise infer from shape. -/
def python_to_variant (value : PyVal) (preferType : Option VariantType) :
    Variant :=
  match value with
  | PyVal.none => ⟨PyVal.none, VariantType.null⟩
  | _ =>
    match preferType with
    | some t =>
      if t ≠ VariantType.variant then ⟨value, t⟩ else pythonInferVariant value
    | Option.none => pythonInferVariant value

/-- `get_node_variant_type` reads the node's declared data-type browse name
off the server and maps the fixed primitive-name table to a variant kind,
with unknown or unreadable types giving the generic `variant`; the snapshot
stores the resolved outcome as `NodeInfo.vtype`. -/
def get_node_variant_type (cl : OpcClient) (node : Nat) : VariantType :=
  (cl.space node).vtype

/-! ## Writer (`src/src/opcua/client/writer.py`) -/

/-- `_get_array_field_index`: position of the first direct child whose
display or browse name equals the field name. -/
def get_array_field_index (cl : OpcClient) (node : Nat) (fieldName : String) :
    Option Nat :=
  (cl.space node).children.findIdx? fun ch =>
    (cl.space ch).displayName == fieldName ||
      (cl.space ch).browseName == fieldName

/-- `f"{parent_path}.{field_name}" if field_name else parent_path` — the
sentinel `None` (and a falsy empty name) reconstruct the bare parent. -/
def fullPath (parentPath : String) : Option String → String
  | some f => if f ≠ "" then parentPath ++ "." ++ f else parentPath
  | Option.none => parentPath

/-- `grouped_writes[parent_path][field_name] = value`, creating the inner
dict when the parent key is new. -/
def groupsInsert (g : List (String × List (Option String × PyVal)))
    (parent : String) (field : Option String) (v : PyVal) :
    List (String × List (Option String × PyVal)) :=
  match dictGet g parent with
  | some inner => dictInsert g parent (dictInsert inner field v)
  | Option.none => g ++ [(parent, [(field, v)])]

/-- `parts = path.split('.')` followed by
`parts = [p for p in parts if p]`. -/
def normParts (path : String) : List String :=
  (splitDots path).filter fun p => p ≠ ""

/-- The validation-and-grouping loop of `write_values`: empty paths fail
immediately; paths with at least two non-empty segments group under the
re-joined parent; single-segment paths map to `{None: value}` under the
original path string (replacing any group already at that key). -/
def groupStep
    (acc : List (String × Bool) × List (String × List (Option String × PyVal)))
    (pv : String × PyVal) :
    List (String × Bool) × List (String × List (Option String × PyVal)) :=
  if pv.1 = "" then (dictInsert acc.1 pv.1 false, acc.2)
  else
    let parts := normParts pv.1
    if hp : parts = [] then (dictInsert acc.1 pv.1 false, acc.2)
    else if 2 ≤ parts.length then
      (acc.1,
        groupsInsert acc.2 (joinDots parts.dropLast) (some (parts.getLast hp))
          pv.2)
    else (acc.1, dictInsert acc.2 pv.1 [(Option.none, pv.2)])

/-- One field of the array batch branch: locate the field's positional
index among the parent's children by name, in range overwrite that slot
(coercing to `bool` when the child's wire type is Boolean under
`auto_convert`) and mark success, otherwise mark failure.  Sentinel `None`
fields are skipped with no result entry. -/
def arrayFieldStep (cl : OpcClient) (autoConvert : Bool) (parentPath : String)
    (pnode : Nat) (acc : List PyVal × List (String × Bool))
    (fv : Option String × PyVal) : List PyVal × List (String × Bool) :=
  match fv.1 with
  | Option.none => acc
  | some f =>
    let full := parentPath ++ "." ++ f
    match get_array_field_index cl pnode f with
    | Option.none => (acc.1, dictInsert acc.2 full false)
    | some index =>
      if acc.1.length ≤ index then (acc.1, dictInsert acc.2 full false)
      else
        let newVal :=
          if autoConvert then
            let childNodes := (cl.space pnode).children
            if index < childNodes.length then
              if get_node_variant_type cl (childNodes.getD index 0) =
                  VariantType.boolean then
                PyVal.bool (pyTruthy fv.2)
              else fv.2
            else fv.2
          else fv.2
        (acc.1.set index newVal, dictInsert acc.2 full true)

/-- One field of the normal (non-array) branch: resolve the full child path
(the parent itself for the sentinel), reject dict values, convert and
write; any failure marks only this field false. -/
def processField (cl : OpcClient) (rootName : String) (autoConvert : Bool)
    (parentPath : String) (pnode : Nat)
    (acc : List (String × Bool) × List (Nat × Variant))
    (fv : Option String × PyVal) :
    List (String × Bool) × List (Nat × Variant) :=
  let full := fullPath parentPath fv.1
  let nodeOpt := match fv.1 with
    | some f =>
      if f ≠ "" then find_node_by_path cl full rootName else some pnode
    | Option.none => some pnode
  match nodeOpt with
  | Option.none => (dictInsert acc.1 full false, acc.2)
  | some nd =>
    match fv.2 with
    | PyVal.dict _ => (dictInsert acc.1 full false, acc.2)
    | v =>
      let variant :=
        if autoConvert then
          python_to_variant v (some (get_node_variant_type cl nd))
        else python_to_variant v Option.none
      if (cl.space nd).writeOk then
        (dictInsert acc.1 full true, acc.2 ++ [(nd, variant)])
      else (dictInsert acc.1 full false, acc.2)

/-- One parent group of `write_values`: unresolved parents fail all their
fields; a multi-field group whose parent currently holds a sequence takes
the array batch branch (one write of the whole modified array, failure of
that write downgrading every field of the group); otherwise each field is
written individually. -/
def processGroup (cl : OpcClient) (rootName : String) (autoConvert : Bool)
    (acc : List (String × Bool) × List (Nat × Variant))
    (grp : String × List (Option String × PyVal)) :
    List (String × Bool) × List (Nat × Variant) :=
  match find_node_by_path cl grp.1 rootName with
  | Option.none =>
    (grp.2.foldl (fun res fv => dictInsert res (fullPath grp.1 fv.1) false)
      acc.1, acc.2)
  | some pnode =>
    let currentValue := (cl.space pnode).value
    let isArray := match currentValue with
      | some (PyVal.list _) => true
      | _ => false
    if isArray && decide (2 ≤ grp.2.length) && currentValue.isSome then
      let arr0 := match currentValue with
        | some (PyVal.list xs) => xs
        | _ => []
      let r := grp.2.foldl (arrayFieldStep cl autoConvert grp.1 pnode)
        (arr0, acc.1)
      let variant :=
        if autoConvert then
          python_to_variant (PyVal.list r.1)
            (some (get_node_variant_type cl pnode))
        else python_to_variant (PyVal.list r.1) Option.none
      if (cl.space pnode).writeOk then (r.2, acc.2 ++ [(pnode, variant)])
      else
        (grp.2.foldl (fun res fv => dictInsert res (fullPath grp.1 fv.1) false)
          r.2, acc.2)
    else
      grp.2.foldl (processField cl rootName autoConvert grp.1 pnode) acc

/-- `write_values`: validate and group, then process every parent group,
returning the per-path result dict together with the trace of
`write_value` calls actually issued. -/
def write_values (cl : OpcClient) (data : List (String × PyVal))
    (rootName : String) (autoConvert : Bool) :
    List (String × Bool) × List (Nat × Variant) :=
  let g := data.foldl groupStep ([], [])
  g.2.foldl (processGroup cl rootName autoConvert) (g.1, [])

/-! ## Client construction (`writer.py` `OPCUAWriter.__init__`,
`src/opcua/reader.py` `OPCUAReader.__init__`)

The writer's connect timeout is a float and stays outside the model; error
messages are abbreviated. -/

structure WriterState where
  url : String
  target_object : String

structure ReaderState where
  url : String
  target_object : String
  cache : TypeCache PyVal

/-- `OPCUAWriter.__init__`: rejects falsy URLs, then any URL not starting
with `opc.tcp://`, before any connection attempt. -/
def OPCUAWriter_init (url : String) (targetObject : String) :
    Except String WriterState :=
  if url = "" then Except.error "invalid URL"
  else if url.startsWith "opc.tcp://" = false then
    Except.error "URL must start with opc.tcp://"
  else Except.ok ⟨url, targetObject⟩

/-- `OPCUAReader.__init__`: stores the URL and a fresh `TypeCache` with no
validation of any kind — it cannot fail. -/
def OPCUAReader_init (url : String) (targetObject : String) :
    Except String ReaderState :=
  Except.ok ⟨url, targetObject, TypeCache.init PyVal 1000⟩

/-- An address space in which nothing resolves (no objects under the
objects container). -/
def noResolveClient : OpcClient := ⟨fun _ => {}, []⟩

/-- Root object with an array-valued child `parent` whose element fields
are `a`, `b`, `c`. -/
def arrayBatchClient : OpcClient :=
  ⟨fun n =>
    if n = 0 then
      { displayName := "Root", nodeClass := NodeClass.obj, children := [1] }
    else if n = 1 then
      { displayName := "parent"
        browseName := "parent"
        children := [2, 3, 4]
        value := some (PyVal.list [PyVal.int 0, PyVal.int 0, PyVal.int 0])
        vtype := VariantType.int32 }
    else if n = 2 then
      { displayName := "a", browseName := "a", vtype := VariantType.int32 }
    else if n = 3 then
      { displayName := "b", browseName := "b", vtype := VariantType.int32 }
    else
      { displayName := "c", browseName := "c", vtype := VariantType.int32 },
   [0]⟩

/-! ### Path-string lemmas for the grouping proof -/

def dotFree (s : String) : Prop := '.' ∉ s.data

/-- The full reconstructed path of every field slot of every group, in
group and slot order. -/
def groupPaths (G : List (String × List (Option String × PyVal))) :
    List String :=
  G.flatMap fun g => g.2.map fun fv => fullPath g.1 fv.1

/-- Well-formedness of the grouping dict maintained by `groupStep`: distinct
parent keys; every group non-empty; named fields are non-empty dot-free
segment strings; a group containing the sentinel `None` key is exactly the
singleton the simple-path branch wrote. -/
def GroupWf (G : List (String × List (Option String × PyVal))) : Prop :=
  (G.map Prod.fst).Nodup ∧
  ∀ g ∈ G, g.2 ≠ [] ∧
    (∀ fv ∈ g.2, ∀ f, fv.1 = some f → f ≠ "" ∧ dotFree f) ∧
    (∀ v, (Option.none, v) ∈ g.2 → ∃ w, g.2 = [(Option.none, w)])

/-! ## Theorems -/

@[simp] theorem dictInsert_nil {K V : Type} [DecidableEq K] (k : K) (v : V) :
    dictInsert ([] : List (K × V)) k v = [(k, v)] := rfl

@[simp] theorem dictGet_nil {K V : Type} [DecidableEq K] (k : K) :
    dictGet ([] : List (K × V)) k = none := rfl

theorem dictInsert_cons {K V : Type} [DecidableEq K] (k' k : K) (v' v : V)
    (rest : List (K × V)) :
    dictInsert ((k', v') :: rest) k v =
      if k' = k then (k, v) :: rest else (k', v') :: dictInsert rest k v := rfl

theorem dictGet_cons {K V : Type} [DecidableEq K] (k' k : K) (v' : V)
    (rest : List (K × V)) :
    dictGet ((k', v') :: rest) k =
      if k' = k then some v' else dictGet rest k := rfl

theorem dictGet_eq_none_iff {K V : Type} [DecidableEq K]
    (m : List (K × V)) (k : K) :
    dictGet m k = none ↔ k ∉ m.map Prod.fst := by
  induction m with
  | nil => simp
  | cons p rest ih =>
    obtain ⟨k', v'⟩ := p
    by_cases h : k' = k
    · subst h; simp [dictGet_cons]
    · simp only [dictGet_cons, if_neg h, List.map_cons, List.mem_cons, ih]
      constructor
      · rintro hk (h1 | h1)
        · exact h h1.symm
        · exact hk h1
      · intro hk h1
        exact hk (Or.inr h1)

theorem dictGet_isSome_iff {K V : Type} [DecidableEq K]
    (m : List (K × V)) (k : K) :
    (dictGet m k).isSome = true ↔ k ∈ m.map Prod.fst := by
  rcases h : dictGet m k with _ | v
  · simp only [Option.isSome_none, Bool.false_eq_true, false_iff]
    exact (dictGet_eq_none_iff m k).1 h
  · simp only [Option.isSome_some, true_iff]
    by_contra hmem
    rw [(dictGet_eq_none_iff m k).2 hmem] at h
    exact Option.noConfusion h

theorem dictInsert_map_fst_of_mem {K V : Type} [DecidableEq K]
    (m : List (K × V)) (k : K) (v : V) (h : k ∈ m.map Prod.fst) :
    (dictInsert m k v).map Prod.fst = m.map Prod.fst := by
  induction m with
  | nil => simp at h
  | cons p rest ih =>
    obtain ⟨k', v'⟩ := p
    by_cases hk : k' = k
    · subst hk; simp [dictInsert_cons]
    · simp only [List.map_cons, List.mem_cons] at h
      rcases h with h | h
      · exact absurd h.symm hk
      · simp [dictInsert_cons, if_neg hk, ih h]

theorem dictInsert_map_fst_of_not_mem {K V : Type} [DecidableEq K]
    (m : List (K × V)) (k : K) (v : V) (h : k ∉ m.map Prod.fst) :
    (dictInsert m k v).map Prod.fst = m.map Prod.fst ++ [k] := by
  induction m with
  | nil => simp
  | cons p rest ih =>
    obtain ⟨k', v'⟩ := p
    simp only [List.map_cons, List.mem_cons] at h
    push_neg at h
    have hk : ¬ k' = k := fun hkk => h.1 hkk.symm
    simp [dictInsert_cons, if_neg hk, ih h.2]

theorem dictInsert_length_of_mem {K V : Type} [DecidableEq K]
    (m : List (K × V)) (k : K) (v : V) (h : k ∈ m.map Prod.fst) :
    (dictInsert m k v).length = m.length := by
  have := dictInsert_map_fst_of_mem m k v h
  calc (dictInsert m k v).length = ((dictInsert m k v).map Prod.fst).length := by
        simp
    _ = (m.map Prod.fst).length := by rw [this]
    _ = m.length := by simp

theorem dictInsert_length_of_not_mem {K V : Type} [DecidableEq K]
    (m : List (K × V)) (k : K) (v : V) (h : k ∉ m.map Prod.fst) :
    (dictInsert m k v).length = m.length + 1 := by
  have := dictInsert_map_fst_of_not_mem m k v h
  calc (dictInsert m k v).length = ((dictInsert m k v).map Prod.fst).length := by
        simp
    _ = (m.map Prod.fst ++ [k]).length := by rw [this]
    _ = m.length + 1 := by simp

theorem dictInsert_length_le {K V : Type} [DecidableEq K]
    (m : List (K × V)) (k : K) (v : V) :
    (dictInsert m k v).length ≤ m.length + 1 := by
  by_cases h : k ∈ m.map Prod.fst
  · rw [dictInsert_length_of_mem m k v h]; omega
  · rw [dictInsert_length_of_not_mem m k v h]

theorem dictErase_map_fst {K V : Type} [DecidableEq K]
    (m : List (K × V)) (k : K) :
    (dictErase m k).map Prod.fst = (m.map Prod.fst).eraseP (· = k) := by
  induction m with
  | nil => rfl
  | cons p rest ih =>
    obtain ⟨k', v'⟩ := p
    by_cases h : k' = k
    · subst h; simp [dictErase, List.eraseP_cons]
    · simp [dictErase, if_neg h, List.eraseP_cons, h, ih]

theorem dictErase_sublist {K V : Type} [DecidableEq K]
    (m : List (K × V)) (k : K) : (dictErase m k).Sublist m := by
  induction m with
  | nil => exact List.Sublist.refl _
  | cons p rest ih =>
    obtain ⟨k', v'⟩ := p
    by_cases h : k' = k
    · rw [dictErase, if_pos h]
      exact List.sublist_cons_self (k', v') rest
    · rw [dictErase, if_neg h]
      exact List.Sublist.cons₂ (k', v') ih

/-- The `set` pattern of the cache, `move_to_end` after dict assignment:
the entry with key `k` is pulled out of its slot and re-appended with the
new value. -/
theorem odMoveToEnd_dictInsert {K V : Type} [DecidableEq K]
    (m : List (K × V)) (k : K) (v : V) :
    odMoveToEnd (dictInsert m k v) k = dictErase m k ++ [(k, v)] := by
  induction m with
  | nil => simp [odMoveToEnd, dictInsert, dictGet, dictErase]
  | cons p rest ih =>
    obtain ⟨k', v'⟩ := p
    by_cases h : k' = k
    · subst h
      simp [odMoveToEnd, dictInsert, dictGet, dictErase]
    · simp only [dictInsert_cons, if_neg h, odMoveToEnd, dictGet_cons, if_neg h,
        dictErase, if_neg h] at *
      rcases hg : dictGet (dictInsert rest k v) k with _ | w
      · exfalso
        have hk : k ∈ (dictInsert rest k v).map Prod.fst := by
          by_cases hm : k ∈ rest.map Prod.fst
          · rw [dictInsert_map_fst_of_mem rest k v hm]; exact hm
          · rw [dictInsert_map_fst_of_not_mem rest k v hm]; simp
        exact absurd ((dictGet_eq_none_iff _ k).1 hg) (by simpa using hk)
      · rw [hg] at ih
        simp only [] at ih
        simp [ih]

theorem ksSet_eq {V : Type} (m : List (String × V)) (maxSize : Nat)
    (k : String) (v : V) :
    ksSet m maxSize k v = dictErase (evict_if_needed m maxSize) k ++ [(k, v)] :=
  odMoveToEnd_dictInsert _ k v

theorem ksSet_length_le {V : Type} (m : List (String × V)) (maxSize : Nat)
    (k : String) (v : V) (hcap : m.length ≤ maxSize) (hpos : 1 ≤ maxSize) :
    (ksSet m maxSize k v).length ≤ maxSize := by
  rw [ksSet_eq]
  have herase : (dictErase (evict_if_needed m maxSize) k).length ≤
      (evict_if_needed m maxSize).length :=
    (dictErase_sublist _ k).length_le
  by_cases h : maxSize ≤ m.length
  · have hm : m.length = maxSize := le_antisymm hcap h
    have : (evict_if_needed m maxSize).length = m.length - 1 := by
      simp [evict_if_needed, if_pos h]
    simp only [List.length_append, List.length_cons, List.length_nil]
    omega
  · have : (evict_if_needed m maxSize).length = m.length := by
      simp [evict_if_needed, if_neg h]
    simp only [List.length_append, List.length_cons, List.length_nil]
    omega

theorem dictErase_length_of_mem {K V : Type} [DecidableEq K]
    (m : List (K × V)) (k : K) (hmem : k ∈ m.map Prod.fst) :
    (dictErase m k).length + 1 = m.length := by
  induction m with
  | nil => simp at hmem
  | cons p rest ih =>
    obtain ⟨k', v'⟩ := p
    by_cases h : k' = k
    · simp [dictErase, if_pos h]
    · simp only [List.map_cons, List.mem_cons] at hmem
      rcases hmem with h1 | h1
      · exact absurd h1.symm h
      · simp only [dictErase, if_neg h, List.length_cons]
        rw [ih h1]

theorem ksGet_length {V : Type} (m : List (String × V)) (k : String) :
    (ksGet m k).2.length = m.length := by
  unfold ksGet
  rcases hg : dictGet m k with _ | v
  · rfl
  · have hmem : k ∈ m.map Prod.fst := by
      by_contra hmem
      rw [(dictGet_eq_none_iff m k).2 hmem] at hg
      exact Option.noConfusion hg
    simp only [odMoveToEnd, hg]
    have := dictErase_length_of_mem m k hmem
    simp only [List.length_append, List.length_cons, List.length_nil]
    omega

theorem dictErase_not_mem_of_nodup {K V : Type} [DecidableEq K]
    (m : List (K × V)) (k : K) (h : (m.map Prod.fst).Nodup) :
    k ∉ (dictErase m k).map Prod.fst := by
  induction m with
  | nil => simp [dictErase]
  | cons p rest ih =>
    obtain ⟨k', v'⟩ := p
    simp only [List.map_cons, List.nodup_cons] at h
    by_cases hk : k' = k
    · subst hk
      simp only [dictErase, if_pos rfl]
      exact h.1
    · simp only [dictErase, if_neg hk, List.map_cons, List.mem_cons]
      rintro (h1 | h1)
      · exact hk h1.symm
      · exact ih h.2 h1

theorem touchBump_inv {V : Type} (m : List (String × V))
    (t : List (String × Nat)) (step : Nat) (k : String) (v : V)
    (h : KsInv m t step) :
    KsInv (dictErase m k ++ [(k, v)]) (touchBump t k step) (step + 1) := by
  obtain ⟨halign, hchain, hbound, hnodup⟩ := h
  refine ⟨?_, ?_, ?_, ?_⟩
  · simp [touchBump, dictErase_map_fst, halign]
  · rw [touchBump, List.map_append]
    rw [List.chain'_append]
    refine ⟨hchain.sublist ((dictErase_sublist t k).map _), by simp, ?_⟩
    intro x hx y hy
    simp only [List.map_cons, List.map_nil, List.head?_cons,
      Option.mem_def, Option.some.injEq] at hy
    subst hy
    have hxmem : x ∈ (dictErase t k).map Prod.snd :=
      List.mem_of_mem_getLast? hx
    exact hbound x (((dictErase_sublist t k).map Prod.snd).mem hxmem)
  · intro x hx
    rw [touchBump, List.map_append] at hx
    rcases List.mem_append.1 hx with h1 | h1
    · have := hbound x (((dictErase_sublist t k).map Prod.snd).mem h1)
      omega
    · simp at h1
      omega
  · rw [List.map_append]
    simp only [List.map_cons, List.map_nil]
    rw [List.nodup_append]
    refine ⟨hnodup.sublist ((dictErase_sublist m k).map _), by simp, ?_⟩
    intro a ha hb
    simp only [List.mem_cons, List.not_mem_nil, or_false] at hb
    subst hb
    exact dictErase_not_mem_of_nodup m a hnodup ha

theorem tail_map_fst {K V : Type} (m : List (K × V)) :
    m.tail.map (Prod.fst : K × V → K) = (m.map Prod.fst).tail := by
  cases m <;> simp

theorem ksGet_inv {V : Type} (m : List (String × V))
    (t : List (String × Nat)) (step : Nat) (k : String)
    (h : KsInv m t step) :
    KsInv (ksGet m k).2
      (if (dictGet m k).isSome then touchBump t k step else t) (step + 1) := by
  rcases hg : dictGet m k with _ | v
  · simp only [hg, Option.isSome_none, Bool.false_eq_true, if_neg,
      reduceIte, ksGet]
    obtain ⟨halign, hchain, hbound, hnodup⟩ := h
    exact ⟨halign, hchain, fun x hx => Nat.lt_succ_of_lt (hbound x hx), hnodup⟩
  · simp only [hg, Option.isSome_some, reduceIte, ksGet, odMoveToEnd]
    exact touchBump_inv m t step k v h

theorem ksSet_inv {V : Type} (m : List (String × V))
    (t : List (String × Nat)) (step maxSize : Nat) (k : String) (v : V)
    (h : KsInv m t step) :
    KsInv (ksSet m maxSize k v)
      (touchBump (if maxSize ≤ m.length then t.tail else t) k step)
      (step + 1) := by
  rw [ksSet_eq]
  obtain ⟨halign, hchain, hbound, hnodup⟩ := h
  have halen : t.length = m.length := by
    have := congrArg List.length halign
    simpa using this
  by_cases hcap : maxSize ≤ m.length
  · simp only [evict_if_needed, if_pos hcap, if_pos (halen ▸ hcap)]
    refine touchBump_inv m.tail t.tail step k v ⟨?_, ?_, ?_, ?_⟩
    · rw [tail_map_fst, tail_map_fst, halign]
    · exact hchain.sublist ((List.tail_sublist t).map _)
    · intro x hx
      exact hbound x (((List.tail_sublist t).map Prod.snd).mem hx)
    · exact hnodup.sublist ((List.tail_sublist m).map _)
  · simp only [evict_if_needed, if_neg hcap, if_neg (halen ▸ hcap)]
    exact touchBump_inv m t step k v ⟨halign, hchain, hbound, hnodup⟩

theorem KsInv.mono {V : Type} {m : List (String × V)}
    {t : List (String × Nat)} {step : Nat} (h : KsInv m t step) :
    KsInv m t (step + 1) :=
  ⟨h.1, h.2.1, fun x hx => Nat.lt_succ_of_lt (h.2.2.1 x hx), h.2.2.2⟩

theorem get_definition_defs {A : Type} (c : TypeCache A) (k : String) :
    (c.get_definition k).2.datatype_definitions =
      (ksGet c.datatype_definitions k).2 := by
  unfold TypeCache.get_definition
  rcases ksGet c.datatype_definitions k with ⟨_ | v, m⟩ <;> rfl

theorem get_definition_flds {A : Type} (c : TypeCache A) (k : String) :
    (c.get_definition k).2.field_names = c.field_names := by
  unfold TypeCache.get_definition
  rcases ksGet c.datatype_definitions k with ⟨_ | v, m⟩ <;> rfl

theorem get_definition_max {A : Type} (c : TypeCache A) (k : String) :
    (c.get_definition k).2.max_size = c.max_size := by
  unfold TypeCache.get_definition
  rcases ksGet c.datatype_definitions k with ⟨_ | v, m⟩ <;> rfl

theorem get_field_names_flds {A : Type} (c : TypeCache A) (k : String) :
    (c.get_field_names k).2.field_names = (ksGet c.field_names k).2 := by
  unfold TypeCache.get_field_names
  rcases ksGet c.field_names k with ⟨_ | v, m⟩ <;> rfl

theorem get_field_names_defs {A : Type} (c : TypeCache A) (k : String) :
    (c.get_field_names k).2.datatype_definitions = c.datatype_definitions := by
  unfold TypeCache.get_field_names
  rcases ksGet c.field_names k with ⟨_ | v, m⟩ <;> rfl

theorem get_field_names_max {A : Type} (c : TypeCache A) (k : String) :
    (c.get_field_names k).2.max_size = c.max_size := by
  unfold TypeCache.get_field_names
  rcases ksGet c.field_names k with ⟨_ | v, m⟩ <;> rfl

theorem cacheInv_step {A : Type} (maxSize : Nat) (c : TypeCache A)
    (r : Recency) (op : CacheOp A) (hpos : 1 ≤ maxSize)
    (h : CacheInv maxSize c r) :
    CacheInv maxSize (applyOp c op) (recencyStep maxSize c r op) := by
  obtain ⟨hmax, hlen1, hlen2, hk1, hk2⟩ := h
  cases op with
  | getDef k =>
    show CacheInv maxSize (c.get_definition k).2 _
    rw [CacheInv, get_definition_defs, get_definition_flds, get_definition_max]
    refine ⟨hmax, ?_, hlen2, ?_, hk2.mono⟩
    · rw [ksGet_length]; exact hlen1
    · exact ksGet_inv c.datatype_definitions r.touchDef r.step k hk1
  | setDef k v =>
    show CacheInv maxSize (c.set_definition k v) _
    rw [CacheInv, TypeCache.set_definition]
    refine ⟨hmax, ?_, hlen2, ?_, hk2.mono⟩
    · show (ksSet c.datatype_definitions c.max_size k v).length ≤ maxSize
      rw [hmax]
      exact ksSet_length_le _ _ _ _ hlen1 hpos
    · show KsInv (ksSet c.datatype_definitions c.max_size k v) _ _
      rw [hmax]
      exact ksSet_inv c.datatype_definitions r.touchDef r.step maxSize k v hk1
  | getFld k =>
    show CacheInv maxSize (c.get_field_names k).2 _
    rw [CacheInv, get_field_names_defs, get_field_names_flds,
      get_field_names_max]
    refine ⟨hmax, hlen1, ?_, hk1.mono, ?_⟩
    · rw [ksGet_length]; exact hlen2
    · exact ksGet_inv c.field_names r.touchFld r.step k hk2
  | setFld k ns =>
    show CacheInv maxSize (c.set_field_names k ns) _
    rw [CacheInv, TypeCache.set_field_names]
    refine ⟨hmax, hlen1, ?_, hk1.mono, ?_⟩
    · show (ksSet c.field_names c.max_size k ns).length ≤ maxSize
      rw [hmax]
      exact ksSet_length_le _ _ _ _ hlen2 hpos
    · show KsInv (ksSet c.field_names c.max_size k ns) _ _
      rw [hmax]
      exact ksSet_inv c.field_names r.touchFld r.step maxSize k ns hk2
  | clearOp =>
    refine ⟨?_, ?_, ?_, ⟨?_, ?_, ?_, ?_⟩, ⟨?_, ?_, ?_, ?_⟩⟩ <;>
      simp [applyOp, TypeCache.clear, recencyStep, hmax]

theorem cacheFold_inv {A : Type} (maxSize : Nat) (hpos : 1 ≤ maxSize) :
    ∀ (ops : List (CacheOp A)) (p : TypeCache A × Recency),
      CacheInv maxSize p.1 p.2 →
      CacheInv maxSize
        (ops.foldl (fun p op => (applyOp p.1 op, recencyStep maxSize p.1 p.2 op)) p).1
        (ops.foldl (fun p op => (applyOp p.1 op, recencyStep maxSize p.1 p.2 op)) p).2 := by
  intro ops
  induction ops with
  | nil => intro p h; exact h
  | cons op rest ih =>
    intro p h
    simp only [List.foldl_cons]
    exact ih _ (cacheInv_step maxSize p.1 p.2 op hpos h)

theorem cacheReplay_inv {A : Type} (maxSize : Nat) (ops : List (CacheOp A))
    (hpos : 1 ≤ maxSize) :
    CacheInv maxSize (cacheReplay A maxSize ops).1 (cacheReplay A maxSize ops).2 := by
  have hstart : CacheInv maxSize (TypeCache.init A maxSize) ⟨[], [], 0⟩ :=
    ⟨rfl, by simp [TypeCache.init], by simp [TypeCache.init],
      ⟨rfl, by simp, by simp, by simp [TypeCache.init]⟩,
      ⟨rfl, by simp, by simp, by simp [TypeCache.init]⟩⟩
  exact cacheFold_inv maxSize hpos ops _ hstart

theorem ksGet_hit_mru {V : Type} (m : List (String × V)) (k : String)
    (h : (dictGet m k).isSome = true) :
    ((ksGet m k).2.map Prod.fst).getLast? = some k := by
  rcases hg : dictGet m k with _ | v
  · rw [hg] at h; exact absurd h (by simp)
  · simp only [ksGet, hg, odMoveToEnd]
    rw [List.map_append]
    simp

/-- C1.  For every capacity `N ≥ 1` and every trace of cache operations run
from a fresh `TypeCache`: each keyspace holds at most `N` entries; a `set`
issued while a keyspace is at capacity first evicts exactly the front entry
of that keyspace and then inserts the new binding at the most-recent end;
the keys of each keyspace are aligned with the recency bookkeeping and their
last-touch steps strictly increase from front to back (so the front entry —
the one `popitem(last=False)` evicts — is the least-recently-used one); and
every successful `get` leaves the accessed key at the most-recent end.

(For `N = 0` CPython raises `KeyError` inside `popitem` on the empty
keyspace, so the recency claim is vacuous there; the theorem assumes
`1 ≤ N`.) -/
theorem typecache_lru_policy (A : Type) (maxSize : Nat)
    (ops : List (CacheOp A)) (hpos : 1 ≤ maxSize) :
    (cacheReplay A maxSize ops).1.datatype_definitions.length ≤ maxSize ∧
    (cacheReplay A maxSize ops).1.field_names.length ≤ maxSize ∧
    (∀ k v, maxSize ≤ (cacheReplay A maxSize ops).1.datatype_definitions.length →
      ((cacheReplay A maxSize ops).1.set_definition k v).datatype_definitions =
        dictErase (cacheReplay A maxSize ops).1.datatype_definitions.tail k ++
          [(k, v)]) ∧
    (∀ k ns, maxSize ≤ (cacheReplay A maxSize ops).1.field_names.length →
      ((cacheReplay A maxSize ops).1.set_field_names k ns).field_names =
        dictErase (cacheReplay A maxSize ops).1.field_names.tail k ++
          [(k, ns)]) ∧
    (cacheReplay A maxSize ops).2.touchDef.map Prod.fst =
      (cacheReplay A maxSize ops).1.datatype_definitions.map Prod.fst ∧
    ((cacheReplay A maxSize ops).2.touchDef.map Prod.snd).Chain' (· < ·) ∧
    (cacheReplay A maxSize ops).2.touchFld.map Prod.fst =
      (cacheReplay A maxSize ops).1.field_names.map Prod.fst ∧
    ((cacheReplay A maxSize ops).2.touchFld.map Prod.snd).Chain' (· < ·) ∧
    (∀ k, (dictGet (cacheReplay A maxSize ops).1.datatype_definitions k).isSome = true →
      ((((cacheReplay A maxSize ops).1.get_definition k).2.datatype_definitions).map
        Prod.fst).getLast? = some k) ∧
    (∀ k, (dictGet (cacheReplay A maxSize ops).1.field_names k).isSome = true →
      ((((cacheReplay A maxSize ops).1.get_field_names k).2.field_names).map
        Prod.fst).getLast? = some k) := by
  obtain ⟨hmax, hlen1, hlen2, hk1, hk2⟩ := cacheReplay_inv maxSize ops hpos
  refine ⟨hlen1, hlen2, ?_, ?_, hk1.1, hk1.2.1, hk2.1, hk2.2.1, ?_, ?_⟩
  · intro k v hcap
    rw [TypeCache.set_definition]
    show ksSet _ _ _ _ = _
    rw [ksSet_eq, evict_if_needed, hmax, if_pos hcap]
  · intro k ns hcap
    rw [TypeCache.set_field_names]
    show ksSet _ _ _ _ = _
    rw [ksSet_eq, evict_if_needed, hmax, if_pos hcap]
  · intro k hk
    rw [get_definition_defs]
    exact ksGet_hit_mru _ k hk
  · intro k hk
    rw [get_field_names_flds]
    exact ksGet_hit_mru _ k hk

/-- Witness for C1 on a concrete trace with capacity 2: after
`set a; set b; get a; set c` the definitions keyspace holds `[a, c]` — `b`
was the least-recently-used entry and was the one evicted. -/
theorem typecache_lru_policy_witness :
    (cacheReplay Nat 2 [CacheOp.setDef "a" 0, CacheOp.setDef "b" 1,
        CacheOp.getDef "a", CacheOp.setDef "c" 2]).1.datatype_definitions.length ≤ 2 ∧
    ((cacheReplay Nat 2 [CacheOp.setDef "a" 0, CacheOp.setDef "b" 1,
        CacheOp.getDef "a", CacheOp.setDef "c" 2]).1.set_definition "d" 7).datatype_definitions =
      dictErase (cacheReplay Nat 2 [CacheOp.setDef "a" 0, CacheOp.setDef "b" 1,
        CacheOp.getDef "a", CacheOp.setDef "c" 2]).1.datatype_definitions.tail "d" ++
        [("d", 7)] ∧
    (((cacheReplay Nat 2 [CacheOp.setDef "a" 0, CacheOp.setDef "b" 1,
        CacheOp.getDef "a", CacheOp.setDef "c" 2]).1.get_definition "a").2.datatype_definitions.map
      Prod.fst).getLast? = some "a" := by
  have h := typecache_lru_policy Nat 2
    [CacheOp.setDef "a" 0, CacheOp.setDef "b" 1, CacheOp.getDef "a",
     CacheOp.setDef "c" 2] (by decide)
  exact ⟨h.1, h.2.2.1 "d" 7 (by decide), h.2.2.2.2.2.2.2.2.1 "a" (by decide)⟩

theorem ks_existing_evicts {V : Type} (m : List (String × V)) (maxSize : Nat)
    (k : String) (e : String × V) (v : V)
    (hlen : m.length = maxSize) (hhead : m.head? = some e) (hne : e.1 ≠ k)
    (hmem : k ∈ m.map Prod.fst) (hnodup : (m.map Prod.fst).Nodup) :
    (dictErase m.tail k ++ [(k, v)]).length = maxSize - 1 ∧
    e.1 ∉ (dictErase m.tail k ++ [(k, v)]).map Prod.fst ∧
    k ∈ (dictErase m.tail k ++ [(k, v)]).map Prod.fst := by
  rcases m with _ | ⟨p, rest⟩
  · exact absurd hhead (by simp)
  · simp only [List.head?_cons, Option.some.injEq] at hhead
    subst hhead
    simp only [List.map_cons, List.mem_cons, List.nodup_cons] at hmem hnodup
    have hkrest : k ∈ rest.map Prod.fst := by
      rcases hmem with h1 | h1
      · exact absurd h1.symm hne
      · exact h1
    refine ⟨?_, ?_, ?_⟩
    · have := dictErase_length_of_mem rest k hkrest
      simp only [List.tail_cons, List.length_append, List.length_cons,
        List.length_nil, List.length_cons] at *
      omega
    · simp only [List.tail_cons, List.map_append, List.map_cons, List.map_nil,
        List.mem_append, List.mem_cons, List.not_mem_nil, or_false]
      rintro (h1 | h1)
      · exact ((dictErase_sublist rest k).map Prod.fst).mem h1 |> hnodup.1
      · exact hne h1
    · simp

/-- C10.  When a keyspace holds exactly `max_size` entries, `set` with a key
that is already present still evicts the front (least-recently-used) entry
before the update; if that front entry is not the updated key itself, an
unrelated entry is deleted and the keyspace ends one entry below capacity.
Stated for both `set_definition` and `set_field_names`. -/
theorem typecache_set_existing_still_evicts (A : Type) (c : TypeCache A) :
    (∀ (k : String) (v : A) (e : String × A),
      c.datatype_definitions.length = c.max_size →
      c.datatype_definitions.head? = some e →
      e.1 ≠ k →
      k ∈ c.datatype_definitions.map Prod.fst →
      (c.datatype_definitions.map Prod.fst).Nodup →
      (c.set_definition k v).datatype_definitions.length = c.max_size - 1 ∧
      e.1 ∉ (c.set_definition k v).datatype_definitions.map Prod.fst ∧
      k ∈ (c.set_definition k v).datatype_definitions.map Prod.fst) ∧
    (∀ (k : String) (ns : List String) (e : String × List String),
      c.field_names.length = c.max_size →
      c.field_names.head? = some e →
      e.1 ≠ k →
      k ∈ c.field_names.map Prod.fst →
      (c.field_names.map Prod.fst).Nodup →
      (c.set_field_names k ns).field_names.length = c.max_size - 1 ∧
      e.1 ∉ (c.set_field_names k ns).field_names.map Prod.fst ∧
      k ∈ (c.set_field_names k ns).field_names.map Prod.fst) := by
  constructor
  · intro k v e hlen hhead hne hmem hnodup
    have hset : (c.set_definition k v).datatype_definitions =
        dictErase c.datatype_definitions.tail k ++ [(k, v)] := by
      rw [TypeCache.set_definition]
      show ksSet _ _ _ _ = _
      rw [ksSet_eq, evict_if_needed, if_pos (le_of_eq hlen.symm)]
    rw [hset]
    exact ks_existing_evicts c.datatype_definitions c.max_size k e v hlen hhead
      hne hmem hnodup
  · intro k ns e hlen hhead hne hmem hnodup
    have hset : (c.set_field_names k ns).field_names =
        dictErase c.field_names.tail k ++ [(k, ns)] := by
      rw [TypeCache.set_field_names]
      show ksSet _ _ _ _ = _
      rw [ksSet_eq, evict_if_needed, if_pos (le_of_eq hlen.symm)]
    rw [hset]
    exact ks_existing_evicts c.field_names c.max_size k e ns hlen hhead
      hne hmem hnodup

/-- Witness for C10: a definitions keyspace `[x, y]` at capacity 2; setting
the already-present key `y` evicts the unrelated front entry `x` and leaves
one entry. -/
theorem typecache_set_existing_still_evicts_witness :
    (TypeCache.set_definition
        ⟨[("x", 0), ("y", 1)], [("p", ["a"]), ("q", ["b"])], 2, 0, 0⟩
        "y" 5).datatype_definitions.length = 2 - 1 ∧
    "x" ∉ (TypeCache.set_definition
        ⟨[("x", 0), ("y", 1)], [("p", ["a"]), ("q", ["b"])], 2, 0, 0⟩
        "y" 5).datatype_definitions.map Prod.fst ∧
    "y" ∈ (TypeCache.set_definition
        ⟨[("x", 0), ("y", 1)], [("p", ["a"]), ("q", ["b"])], 2, 0, 0⟩
        "y" 5).datatype_definitions.map Prod.fst := by
  have h := (typecache_set_existing_still_evicts Nat
    ⟨[("x", 0), ("y", 1)], [("p", ["a"]), ("q", ["b"])], 2, 0, 0⟩).1
    "y" 5 ("x", 0) (by decide) (by decide) (by decide) (by decide) (by decide)
  exact h

theorem reachSet_self (cl : OpcClient) (node k : Nat) :
    node ∈ reachSet cl node k := by
  cases k <;> simp [reachSet]

theorem reachSet_child (cl : OpcClient) (node c r k : Nat)
    (hc : c ∈ (cl.space node).children) (hr : r ∈ reachSet cl c k) :
    r ∈ reachSet cl node (k + 1) := by
  simp only [reachSet, List.mem_cons, List.mem_flatMap]
  exact Or.inr ⟨c, hc, hr⟩

theorem checkChild_eq_some (cl : OpcClient) (target : String)
    (visited : List Nat) (child c : Nat)
    (h : checkChild cl target visited child = some c) : c = child := by
  unfold checkChild at h
  by_cases h1 : child ∈ visited
  · rw [if_pos h1] at h; exact Option.noConfusion h
  · rw [if_neg h1] at h
    by_cases h2 : (cl.space child).nodeClass = NodeClass.obj ∧
        (cl.space child).displayName = target
    · simp only [if_pos h2, Option.some.injEq] at h
      exact h.symm
    · rw [if_neg h2] at h; exact Option.noConfusion h

/-- Joint depth bound for the mutual recursion, by induction on the
remaining depth budget `maxLevel + 1 - level`. -/
theorem find_depth_aux (cl : OpcClient) (target : String) : ∀ n : Nat,
    (∀ node level maxLevel visited r vis,
      maxLevel + 1 - level ≤ n →
      find_specific_object cl target node level maxLevel visited = (some r, vis) →
      r ∈ reachSet cl node (maxLevel + 1 - level)) ∧
    (∀ nodes level maxLevel visited r vis,
      maxLevel + 1 - level ≤ n →
      findInChildren cl target nodes level maxLevel visited = (some r, vis) →
      ∃ c ∈ nodes, r ∈ reachSet cl c (maxLevel + 1 - level)) := by
  intro n
  induction n with
  | zero =>
    constructor
    · intro node level maxLevel visited r vis hn hf
      exfalso
      have hlt : maxLevel < level := by omega
      rw [find_specific_object, if_pos hlt] at hf
      exact Option.noConfusion (congrArg Prod.fst hf)
    · intro nodes level maxLevel visited r vis hn hf
      exfalso
      have hlt : maxLevel < level := by omega
      induction nodes generalizing visited with
      | nil =>
        rw [findInChildren] at hf
        exact Option.noConfusion (congrArg Prod.fst hf)
      | cons c rest ih =>
        rw [findInChildren, find_specific_object, if_pos hlt] at hf
        exact ih visited hf
  | succ n ihn =>
    have hfind : ∀ node level maxLevel visited r vis,
        maxLevel + 1 - level ≤ n + 1 →
        find_specific_object cl target node level maxLevel visited = (some r, vis) →
        r ∈ reachSet cl node (maxLevel + 1 - level) := by
      intro node level maxLevel visited r vis hn hf
      rw [find_specific_object] at hf
      by_cases hlt : maxLevel < level
      · rw [if_pos hlt] at hf
        exact absurd (congrArg Prod.fst hf) (by simp)
      · rw [if_neg hlt] at hf
        by_cases hv : node ∈ visited
        · rw [if_pos hv] at hf
          exact absurd (congrArg Prod.fst hf) (by simp)
        · rw [if_neg hv] at hf
          have hk : maxLevel + 1 - level = (maxLevel - level) + 1 := by omega
          by_cases hself : (cl.space node).nodeClass = NodeClass.obj ∧
              (cl.space node).displayName = target
          · rw [if_pos hself] at hf
            have : r = node := by
              have := congrArg Prod.fst hf
              simpa using this.symm
            subst this
            exact reachSet_self cl r _
          · rw [if_neg hself] at hf
            rcases hscan : (cl.space node).children.findSome?
                (checkChild cl target (node :: visited)) with _ | c
            · rw [hscan] at hf
              have hrec := ihn.2 (cl.space node).children (level + 1) maxLevel
                (node :: visited) r vis (by omega) hf
              obtain ⟨c, hc, hr⟩ := hrec
              have : maxLevel + 1 - (level + 1) = maxLevel - level := by omega
              rw [this] at hr
              rw [hk]
              exact reachSet_child cl node c r (maxLevel - level) hc hr
            · rw [hscan] at hf
              have hrc : r = c := by
                have := congrArg Prod.fst hf
                simpa using this.symm
              subst hrc
              obtain ⟨child, hchild, hcc⟩ :=
                List.exists_of_findSome?_eq_some hscan
              have := checkChild_eq_some cl target (node :: visited) child r hcc
              subst this
              rw [hk]
              exact reachSet_child cl node r r (maxLevel - level) hchild
                (reachSet_self cl r _)
    refine ⟨hfind, ?_⟩
    intro nodes level maxLevel visited r vis hn hf
    induction nodes generalizing visited with
    | nil =>
      rw [findInChildren] at hf
      exact absurd (congrArg Prod.fst hf) (by simp)
    | cons c rest ih =>
      rw [findInChildren] at hf
      rcases hfc : find_specific_object cl target c level maxLevel visited with
        ⟨_ | r', vis'⟩
      · rw [hfc] at hf
        obtain ⟨c', hc', hr'⟩ := ih vis' hf
        exact ⟨c', List.mem_cons_of_mem c hc', hr'⟩
      · rw [hfc] at hf
        have : r' = r ∧ vis' = vis := by
          constructor
          · have := congrArg Prod.fst hf
            simpa using this
          · have := congrArg Prod.snd hf
            simpa using this
        obtain ⟨h1, h2⟩ := this
        refine ⟨c, List.mem_cons_self c rest, ?_⟩
        rw [← h1]
        exact hfind c level maxLevel visited r' vis' hn hfc

/-- Joint no-revisit invariant for the mutual recursion: threading a
duplicate-free visited set through the search keeps it duplicate-free —
every node id is added (and hence expanded) at most once per top-level
call. -/
theorem find_nodup_aux (cl : OpcClient) (target : String) : ∀ n : Nat,
    (∀ node level maxLevel visited,
      maxLevel + 1 - level ≤ n → visited.Nodup →
      ((find_specific_object cl target node level maxLevel visited).2).Nodup) ∧
    (∀ nodes level maxLevel visited,
      maxLevel + 1 - level ≤ n → visited.Nodup →
      ((findInChildren cl target nodes level maxLevel visited).2).Nodup) := by
  intro n
  induction n with
  | zero =>
    have hlt : ∀ level maxLevel : Nat, maxLevel + 1 - level ≤ 0 →
        maxLevel < level := by omega
    constructor
    · intro node level maxLevel visited hn hv
      rw [find_specific_object, if_pos (hlt level maxLevel hn)]
      exact hv
    · intro nodes level maxLevel visited hn hv
      induction nodes generalizing visited with
      | nil => rw [findInChildren]; exact hv
      | cons c rest ih =>
        rw [findInChildren, find_specific_object,
          if_pos (hlt level maxLevel hn)]
        exact ih visited hv
  | succ n ihn =>
    have hfind : ∀ node level maxLevel visited,
        maxLevel + 1 - level ≤ n + 1 → visited.Nodup →
        ((find_specific_object cl target node level maxLevel visited).2).Nodup := by
      intro node level maxLevel visited hn hv
      rw [find_specific_object]
      by_cases hlt : maxLevel < level
      · rw [if_pos hlt]; exact hv
      · rw [if_neg hlt]
        by_cases hmem : node ∈ visited
        · rw [if_pos hmem]; exact hv
        · rw [if_neg hmem]
          have hv1 : (node :: visited).Nodup := List.nodup_cons.2 ⟨hmem, hv⟩
          by_cases hself : (cl.space node).nodeClass = NodeClass.obj ∧
              (cl.space node).displayName = target
          · rw [if_pos hself]; exact hv1
          · rw [if_neg hself]
            rcases hscan : (cl.space node).children.findSome?
                (checkChild cl target (node :: visited)) with _ | c
            · exact ihn.2 (cl.space node).children (level + 1) maxLevel
                (node :: visited) (by omega) hv1
            · exact hv1
    refine ⟨hfind, ?_⟩
    intro nodes level maxLevel visited hn hv
    induction nodes generalizing visited with
    | nil => rw [findInChildren]; exact hv
    | cons c rest ih =>
      rw [findInChildren]
      rcases hfc : find_specific_object cl target c level maxLevel visited with
        ⟨_ | r', vis'⟩
      · have : vis'.Nodup := by
          have := hfind c level maxLevel visited hn hv
          rw [hfc] at this
          exact this
        exact ih vis' this
      · have : vis'.Nodup := by
          have := hfind c level maxLevel visited hn hv
          rw [hfc] at this
          exact this
        exact this

/-- C2 counterexample: with `maxDepth = 0` the search still returns node 1,
which is not the root but a child of it — a match located at depth
`0 + 1`.  The one-level child scan inside the depth-`d` visit is not guarded
by the depth check, so the claim "never returns a node at depth `d + 1`"
is false on the code. -/
theorem find_specific_object_depth_counterexample :
    (find_specific_object cycClient "T" 0 0 0 []).1 = some 1 ∧
    1 ∈ (cycClient.space 0).children ∧
    (cycClient.space 0).displayName ≠ "T" ∧ (1 : Nat) ≠ 0 := by
  refine ⟨?_, by decide, by decide, by decide⟩
  simp [find_specific_object, checkChild, cycClient]

/-- C2 (amended).  `find_specific_object` with `maxDepth = d` only returns
nodes reachable within `d + 1` child steps of the root (the one-level child
scan looks one level past the depth bound); a call whose level already
exceeds the bound truncates silently, returning "not found"
(`Option.none`) with the visited set untouched — never an error. -/
theorem find_specific_object_depth_bound (cl : OpcClient) (target : String)
    (root d r : Nat) (vis : List Nat)
    (h : find_specific_object cl target root 0 d [] = (some r, vis)) :
    r ∈ reachSet cl root (d + 1) ∧
    ∀ lvl vis0, d < lvl →
      find_specific_object cl target root lvl d vis0 = (Option.none, vis0) := by
  constructor
  · have := (find_depth_aux cl target (d + 1)).1 root 0 d [] r vis (by omega) h
    simpa using this
  · intro lvl vis0 hlt
    rw [find_specific_object, if_pos hlt]

/-- Witness for the amended C2 on the cyclic two-node space with
`maxDepth = 0`: the depth-1 node 1 is returned and lies in the `d + 1`
reach set, and a call entered at level 5 truncates to `none`. -/
theorem find_specific_object_depth_bound_witness :
    find_specific_object cycClient "T" 0 0 0 [] = (some 1, [0]) ∧
    1 ∈ reachSet cycClient 0 1 ∧
    find_specific_object cycClient "T" 0 5 0 [] = (Option.none, []) := by
  have heq : find_specific_object cycClient "T" 0 0 0 [] = (some 1, [0]) := by
    simp [find_specific_object, checkChild, cycClient]
  have h := find_specific_object_depth_bound cycClient "T" 0 0 1 [0] heq
  exact ⟨heq, h.1, h.2 5 [] (by decide)⟩

/-- C3.  `find_specific_object` is a total function of the snapshot (its
recursion is well-founded on the remaining depth budget, so every top-level
call terminates, cycles included); the per-call visited set never acquires a
duplicate (each node id is added, and its properties re-read by the
recursion, at most once per top-level call); and a node whose id is already
in the visited set is skipped immediately with the state unchanged. -/
theorem find_specific_object_no_revisit (cl : OpcClient) (target : String)
    (root d : Nat) :
    ((find_specific_object cl target root 0 d []).2).Nodup ∧
    (∀ node level visited, node ∈ visited →
      find_specific_object cl target node level d visited =
        (Option.none, visited)) := by
  constructor
  · exact (find_nodup_aux cl target (d + 1)).1 root 0 d [] (by omega)
      List.nodup_nil
  · intro node level visited hv
    rw [find_specific_object]
    by_cases hlt : d < level
    · rw [if_pos hlt]
    · rw [if_neg hlt, if_pos hv]

/-- Witness for C3 on the cyclic two-node space. -/
theorem find_specific_object_no_revisit_witness :
    ((find_specific_object cycClient "X" 0 0 10 []).2).Nodup ∧
    find_specific_object cycClient "X" 1 3 10 [1] = (Option.none, [1]) := by
  have h := find_specific_object_no_revisit cycClient "X" 0 10
  exact ⟨h.1, h.2 1 3 [1] (by decide)⟩

/-- C4 counterexample: `find_node_by_path` does not drop empty segments and
has no "empty path" outcome — on an address space whose child is named by
the empty string, both `""` and `"..."` resolve to that child instead of
failing. -/
theorem find_node_by_path_empty_counterexample :
    find_node_by_path emptyNameClient "" "Root" = some 1 ∧
    find_node_by_path emptyNameClient "..." "Root" = some 1 := by
  constructor <;> decide

/-- C4 (amended).  `find_node_by_path` splits the path on `'.'` keeping
empty segments (`""` becomes `[""]`, `"..."` becomes `["","","",""]`) and
attempts resolution of every segment; when no node carries the empty string
as browse or display name the walks fail with the "node not found" outcome
(`Option.none`), not with a dedicated "empty path" check. -/
theorem find_node_by_path_no_empty_check (cl : OpcClient) (rootName : String)
    (hnames : ∀ n : Nat,
      (cl.space n).browseName ≠ "" ∧ (cl.space n).displayName ≠ "") :
    splitDots "" = [""] ∧
    splitDots "..." = ["", "", "", ""] ∧
    find_node_by_path cl "" rootName = Option.none ∧
    find_node_by_path cl "..." rootName = Option.none := by
  have hstep : ∀ (rest : List String) (cur : Nat),
      walkSegments cl ("" :: rest) cur = Option.none := by
    intro rest cur
    have hnone : (cl.space cur).children.find?
        (fun ch => (cl.space ch).browseName == "" ||
          (cl.space ch).displayName == "") = Option.none := by
      rw [List.find?_eq_none]
      intro ch _
      have h1 := (hnames ch).1
      have h2 := (hnames ch).2
      simp [h1, h2]
    rw [walkSegments, hnone]
  refine ⟨by decide, by decide, ?_, ?_⟩
  · rw [find_node_by_path]
    rcases find_object_by_name cl rootName with _ | root
    · rfl
    · have hsplit : splitDots "" = [""] := by decide
      rw [hsplit]
      exact hstep [] root
  · rw [find_node_by_path]
    rcases find_object_by_name cl rootName with _ | root
    · rfl
    · have hsplit : splitDots "..." = ["", "", "", ""] := by decide
      rw [hsplit]
      exact hstep ["", "", ""] root

/-- Witness for the amended C4. -/
theorem find_node_by_path_no_empty_check_witness :
    (∀ n : Nat, (constNameClient.space n).browseName ≠ "" ∧
      (constNameClient.space n).displayName ≠ "") ∧
    find_node_by_path constNameClient "" "Root" = Option.none ∧
    find_node_by_path constNameClient "..." "Root" = Option.none := by
  have hn : ∀ n : Nat, (constNameClient.space n).browseName ≠ "" ∧
      (constNameClient.space n).displayName ≠ "" := by
    intro n
    refine ⟨?_, ?_⟩ <;> simp [constNameClient]
  have h := find_node_by_path_no_empty_check constNameClient "Root" hn
  exact ⟨hn, h.2.2.1, h.2.2.2⟩

theorem dictInsert_eq_append_of_not_mem {K V : Type} [DecidableEq K]
    (m : List (K × V)) (k : K) (v : V) (h : k ∉ m.map Prod.fst) :
    dictInsert m k v = m ++ [(k, v)] := by
  induction m with
  | nil => rfl
  | cons p rest ih =>
    obtain ⟨k', v'⟩ := p
    simp only [List.map_cons, List.mem_cons] at h
    push_neg at h
    have hk : ¬ k' = k := fun hkk => h.1 hkk.symm
    simp [dictInsert_cons, if_neg hk, ih h.2]

/-- A fold of dict assignments whose emitted keys are fresh and mutually
distinct just appends the emitted entries in order. -/
theorem foldl_dictInsert_fresh {α K V : Type} [DecidableEq K]
    (key : α → K) (val : α → V) :
    ∀ (l : List α) (acc : List (K × V)),
      (∀ a ∈ l, key a ∉ acc.map Prod.fst) → (l.map key).Nodup →
      l.foldl (fun r a => dictInsert r (key a) (val a)) acc =
        acc ++ l.map fun a => (key a, val a) := by
  intro l
  induction l with
  | nil => intro acc _ _; simp
  | cons a rest ih =>
    intro acc hfresh hnodup
    simp only [List.foldl_cons]
    rw [dictInsert_eq_append_of_not_mem acc (key a) (val a)
      (hfresh a (List.mem_cons_self a rest))]
    simp only [List.map_cons, List.nodup_cons] at hnodup
    rw [ih (acc ++ [(key a, val a)]) ?_ hnodup.2]
    · simp
    · intro b hb
      rw [List.map_append]
      simp only [List.map_cons, List.map_nil, List.mem_append, List.mem_cons,
        List.not_mem_nil, or_false]
      rintro (h1 | h1)
      · exact hfresh b (List.mem_cons_of_mem a hb) h1
      · exact hnodup.1 (h1 ▸ List.mem_map_of_mem key hb)

/-- C7 counterexample: the node exposes the enumeration list
`["run","fault","ready"]` and the raw value is the non-boolean integer 5,
yet decode returns the raw value unchanged — not the bitmask dict — because
`format_value` returns early when the declared data type cannot be read
(`parser.py` line 259).  The claim as stated omits that precondition. -/
theorem format_value_bitmask_counterexample :
    (format_value enumNoTypeClient 0 (PyVal.int 5) (TypeCache.init Nat 1000)).1 =
      PyVal.int 5 ∧
    (enumNoTypeClient.space 0).enumStrings = some ["run", "fault", "ready"] ∧
    pvIsIntNotBool (PyVal.int 5) = true ∧
    (format_value enumNoTypeClient 0 (PyVal.int 5) (TypeCache.init Nat 1000)).1 ≠
      PyVal.dict [("run", PyVal.int 1), ("fault", PyVal.int 0),
        ("ready", PyVal.int 1)] := by
  refine ⟨rfl, rfl, rfl, ?_⟩
  intro h
  exact PyVal.noConfusion h

/-- C7 (amended).  When the node's data type is determinable, the node
exposes a non-empty enumeration string list and the raw value is an integer
that is not a boolean, decode yields the bitmask dict, which under distinct
names maps `name_i` to bit `i` of the value; this branch runs before any
structural decoding. -/
theorem format_value_bitmask {A : Type} (cl : OpcClient) (node : Nat)
    (v : Int) (es : List String) (dt : Nat) (cache : TypeCache A)
    (hdt : (cl.space node).dataType = some dt)
    (hes : (cl.space node).enumStrings = some es)
    (hne : es ≠ []) :
    format_value cl node (PyVal.int v) cache =
      (PyVal.dict ((parse_bitmask v es).map fun p => (p.1, PyVal.int p.2)),
        cache) ∧
    (es.Nodup → parse_bitmask v es = es.enum.map fun p => (p.2, pyBit v p.1)) := by
  constructor
  · rcases es with _ | ⟨e, es'⟩
    · exact absurd rfl hne
    · rw [format_value, hdt, hes]
      simp [pyListTruthy, pvIsIntNotBool, pvIntValue]
  · intro hnodup
    have hkeys : (es.enum.map Prod.snd).Nodup := by
      rw [List.enum_map_snd]
      exact hnodup
    have := foldl_dictInsert_fresh (Prod.snd : Nat × String → String)
      (fun p => pyBit v p.1) es.enum [] (by simp) hkeys
    rw [parse_bitmask, this]
    simp

/-- Witness for the amended C7: names `["run","fault","ready"]`, value 5
(binary 101) decode to `{run: 1, fault: 0, ready: 1}`. -/
theorem format_value_bitmask_witness :
    format_value enumTypedClient 0 (PyVal.int 5) (TypeCache.init Nat 1000) =
      (PyVal.dict [("run", PyVal.int 1), ("fault", PyVal.int 0),
        ("ready", PyVal.int 1)], TypeCache.init Nat 1000) ∧
    parse_bitmask 5 ["run", "fault", "ready"] =
      [("run", 1), ("fault", 0), ("ready", 1)] := by
  have h := format_value_bitmask (A := Nat) enumTypedClient 0 5
    ["run", "fault", "ready"] 7 (TypeCache.init Nat 1000) rfl rfl (by decide)
  constructor
  · rw [h.1]
    rw [show parse_bitmask 5 ["run", "fault", "ready"] =
      [("run", 1), ("fault", 0), ("ready", 1)] from by decide]
    rfl
  · exact by decide

/-- C8.  When decode has discovered field names for a non-empty raw
sequence, the result is the positional zip dict: `field_names[i]` keys the
element at `i` while `i < len(field_names)`, and every surplus element is
keyed by its bracketed index `[i]`; when the emitted keys are distinct the
dict is exactly the zipped association list. -/
theorem format_value_zip_fields {A : Type} (cl : OpcClient) (node dt : Nat)
    (xs : List PyVal) (names : List String) (cache cache' : TypeCache A)
    (hdt : (cl.space node).dataType = some dt)
    (hxs : xs ≠ [])
    (hdisc : discoverFieldNames cl node dt cache = (some names, cache'))
    (hnames : names ≠ []) :
    format_value cl node (PyVal.list xs) cache =
      (PyVal.dict (zipFieldValues names xs), cache') ∧
    ((xs.enum.map fun p => zipKey names p.1).Nodup →
      zipFieldValues names xs = xs.enum.map fun p => (zipKey names p.1, p.2)) := by
  constructor
  · rw [format_value, hdt]
    have hcond : (pyListTruthy (cl.space node).enumStrings &&
        pvIsIntNotBool (PyVal.list xs)) = false := by
      simp [pvIsIntNotBool]
    rw [hcond]
    simp only [Bool.false_eq_true, if_neg, reduceIte]
    have hlen : 0 < xs.length := List.length_pos.2 hxs
    rw [if_pos hlen, hdisc]
    rcases names with _ | ⟨nm, names'⟩
    · exact absurd rfl hnames
    · simp [pyListTruthy]
  · intro hnodup
    have := foldl_dictInsert_fresh (fun p : Nat × PyVal => zipKey names p.1)
      (Prod.snd : Nat × PyVal → PyVal) xs.enum [] (by simp) hnodup
    rw [zipFieldValues, this]
    simp

/-- Witness for C8: the two spec examples, including the surplus element
keyed `[2]`, with the discovered names cached under the node's id. -/
theorem format_value_zip_fields_witness :
    format_value zipClient 0 (PyVal.list [PyVal.int 10, PyVal.int 20])
        (TypeCache.init Nat 1000) =
      (PyVal.dict [("x", PyVal.int 10), ("y", PyVal.int 20)],
        ⟨[], [("0", ["x", "y"])], 1000, 0, 1⟩) ∧
    format_value zipClient 0
        (PyVal.list [PyVal.int 10, PyVal.int 20, PyVal.int 30])
        (TypeCache.init Nat 1000) =
      (PyVal.dict [("x", PyVal.int 10), ("y", PyVal.int 20),
        ("[2]", PyVal.int 30)],
        ⟨[], [("0", ["x", "y"])], 1000, 0, 1⟩) := by
  have h1 := format_value_zip_fields (A := Nat) zipClient 0 7
    [PyVal.int 10, PyVal.int 20] ["x", "y"] (TypeCache.init Nat 1000)
    ⟨[], [("0", ["x", "y"])], 1000, 0, 1⟩ rfl (by simp) rfl (by decide)
  have h2 := format_value_zip_fields (A := Nat) zipClient 0 7
    [PyVal.int 10, PyVal.int 20, PyVal.int 30] ["x", "y"]
    (TypeCache.init Nat 1000)
    ⟨[], [("0", ["x", "y"])], 1000, 0, 1⟩ rfl (by simp) rfl (by decide)
  exact ⟨h1.1, h2.1⟩

/-- C9 counterexample: `OPCUAReader.__init__` performs no URL validation —
constructing a Reader from `"http://x"` (which does not start with
`opc.tcp://`) succeeds. -/
theorem reader_init_no_validation_counterexample :
    ("http://x".startsWith "opc.tcp://") = false ∧
    (OPCUAReader_init "http://x" "T").isOk = true := by
  constructor <;> decide

/-- C9 (amended).  Only the Writer validates the URL at constructor time:
for every URL not starting with `opc.tcp://`, `OPCUAWriter.__init__` raises
a validation error before any connection attempt, while
`OPCUAReader.__init__` stores the URL unvalidated and always succeeds. -/
theorem url_validation_writer_only (url target : String)
    (h : url.startsWith "opc.tcp://" = false) :
    (∃ e, OPCUAWriter_init url target = Except.error e) ∧
    (OPCUAReader_init url target).isOk = true := by
  constructor
  · by_cases hu : url = ""
    · exact ⟨"invalid URL", by rw [OPCUAWriter_init, if_pos hu]⟩
    · exact ⟨"URL must start with opc.tcp://",
        by rw [OPCUAWriter_init, if_neg hu, if_pos h]⟩
  · rfl

/-- Witness for the amended C9 at `"http://x"`. -/
theorem url_validation_writer_only_witness :
    (∃ e, OPCUAWriter_init "http://x" "T" = Except.error e) ∧
    (OPCUAReader_init "http://x" "T").isOk = true :=
  url_validation_writer_only "http://x" "T" (by decide)

/-- C5 counterexample: the request `{"a..b": 1}` yields a result keyed by
the reconstructed path `"a.b"` — the originally requested string `"a..b"`
has no entry, so keys are rewritten. -/
theorem write_values_key_rewrite_counterexample :
    ((write_values noResolveClient [("a..b", PyVal.int 1)] "Root" true).1).map
      Prod.fst = ["a.b"] ∧
    "a..b" ∉ ((write_values noResolveClient [("a..b", PyVal.int 1)] "Root"
      true).1).map Prod.fst := by
  constructor <;> decide

/-- C6.  A write group targeting a parent that currently holds `[0,0,0]`,
whose children are named `a`, `b`, `c` (non-Boolean wire types), with
request `{"parent.a": 1, "parent.b": 2}`: exactly one write call is issued,
to the parent, carrying the final array `[1,2,0]`, and both requested paths
are marked `true`. -/
theorem write_values_array_batch (cl : OpcClient) (rootName : String)
    (p x y z : Nat)
    (hres : find_node_by_path cl "parent" rootName = some p)
    (hval : (cl.space p).value =
      some (PyVal.list [PyVal.int 0, PyVal.int 0, PyVal.int 0]))
    (hch : (cl.space p).children = [x, y, z])
    (hxd : (cl.space x).displayName = "a")
    (hxb : (cl.space x).browseName = "a")
    (hyd : (cl.space y).displayName = "b")
    (hzd : (cl.space z).displayName = "c")
    (hxv : (cl.space x).vtype = VariantType.int32)
    (hyv : (cl.space y).vtype = VariantType.int32)
    (hw : (cl.space p).writeOk = true) :
    write_values cl [("parent.a", PyVal.int 1), ("parent.b", PyVal.int 2)]
        rootName true =
      ([("parent.a", true), ("parent.b", true)],
       [(p, python_to_variant (PyVal.list [PyVal.int 1, PyVal.int 2, PyVal.int 0])
          (some (cl.space p).vtype))]) := by
  have hg : ([("parent.a", PyVal.int 1), ("parent.b", PyVal.int 2)].foldl
      groupStep ([], [])) =
      ([], [("parent", [(some "a", PyVal.int 1), (some "b", PyVal.int 2)])]) := rfl
  rw [write_values]
  simp only [hg, List.foldl_cons, List.foldl_nil]
  rw [processGroup, hres]
  simp [hval, hch, hw, arrayFieldStep, get_array_field_index,
    get_node_variant_type, hxd, hxb, hyd, hxv, hyv, dictInsert, fullPath]

/-- Witness for C6 on a concrete address space. -/
theorem write_values_array_batch_witness :
    write_values arrayBatchClient
        [("parent.a", PyVal.int 1), ("parent.b", PyVal.int 2)] "Root" true =
      ([("parent.a", true), ("parent.b", true)],
       [(1, python_to_variant
          (PyVal.list [PyVal.int 1, PyVal.int 2, PyVal.int 0])
          (some (arrayBatchClient.space 1).vtype))]) :=
  write_values_array_batch arrayBatchClient "Root" 1 2 3 4 rfl rfl rfl rfl rfl
    rfl rfl rfl rfl rfl

theorem splitDotsAux_ne_nil (cs : List Char) : splitDotsAux cs ≠ [] := by
  cases cs with
  | nil => simp [splitDotsAux]
  | cons c rest =>
    rw [splitDotsAux]
    rcases splitDotsAux rest with _ | ⟨g, gs⟩
    · simp
    · by_cases h : c = '.' <;> simp [h]

theorem splitDotsAux_cons (c : Char) (cs : List Char) :
    splitDotsAux (c :: cs) =
      match splitDotsAux cs with
      | [] => [[c]]
      | g :: gs => if c = '.' then [] :: g :: gs else (c :: g) :: gs := rfl

theorem splitDotsAux_append_dot (xs ys : List Char) :
    splitDotsAux (xs ++ '.' :: ys) = splitDotsAux xs ++ splitDotsAux ys := by
  induction xs with
  | nil =>
    rcases h : splitDotsAux ys with _ | ⟨g, gs⟩
    · exact absurd h (splitDotsAux_ne_nil ys)
    · rw [List.nil_append, splitDotsAux_cons, h]
      simp [splitDotsAux]
  | cons c cs ih =>
    rcases h : splitDotsAux cs with _ | ⟨g, gs⟩
    · exact absurd h (splitDotsAux_ne_nil cs)
    · have hih : splitDotsAux (cs ++ '.' :: ys) = g :: (gs ++ splitDotsAux ys) := by
        rw [ih, h]
        rfl
      rw [List.cons_append, splitDotsAux_cons, hih, splitDotsAux_cons, h]
      by_cases hc : c = '.' <;> simp [hc]

theorem splitDotsAux_no_dot (cs : List Char) :
    ∀ g ∈ splitDotsAux cs, '.' ∉ g := by
  induction cs with
  | nil => simp [splitDotsAux]
  | cons c rest ih =>
    intro g' hg'
    rcases h : splitDotsAux rest with _ | ⟨g, gs⟩
    · exact absurd h (splitDotsAux_ne_nil rest)
    · rw [splitDotsAux_cons, h] at hg'
      have hg2 : g' ∈ (if c = '.' then [] :: g :: gs else (c :: g) :: gs) := hg'
      by_cases hc : c = '.'
      · rw [if_pos hc] at hg2
        rcases List.mem_cons.1 hg2 with hg3 | hg3
        · simp [hg3]
        · exact ih g' (h ▸ hg3)
      · rw [if_neg hc] at hg2
        rcases List.mem_cons.1 hg2 with hg3 | hg3
        · subst hg3
          intro hmem
          rcases List.mem_cons.1 hmem with hm | hm
          · exact hc hm.symm
          · exact ih g (h ▸ List.mem_cons_self g gs) hm
        · exact ih g' (h ▸ List.mem_cons_of_mem g hg3)

theorem splitDotsAux_of_no_dot (cs : List Char) (h : '.' ∉ cs) :
    splitDotsAux cs = [cs] := by
  induction cs with
  | nil => rfl
  | cons c rest ih =>
    have hc : ¬ c = '.' := by
      intro hc
      exact h (by rw [hc]; exact List.mem_cons_self '.' rest)
    have hrest : '.' ∉ rest := fun hm => h (List.mem_cons_of_mem c hm)
    rw [splitDotsAux_cons, ih hrest]
    simp [hc]

theorem splitDots_of_dotFree (s : String) (h : dotFree s) :
    splitDots s = [s] := by
  rw [splitDots, splitDotsAux_of_no_dot s.data h]
  rfl

theorem splitDots_append_dot (a b : String) :
    splitDots (a ++ "." ++ b) = splitDots a ++ splitDots b := by
  rw [splitDots, splitDots, splitDots]
  have hdata : (a ++ "." ++ b).data = a.data ++ '.' :: b.data := by
    rw [String.data_append, String.data_append]
    rw [show (".".data) = ['.'] from by decide]
    simp
  rw [hdata, splitDotsAux_append_dot, List.map_append]

theorem mem_splitDots_dotFree (s p : String) (h : p ∈ splitDots s) :
    dotFree p := by
  rw [splitDots] at h
  obtain ⟨g, hg, hgp⟩ := List.mem_map.1 h
  have := splitDotsAux_no_dot s.data g hg
  rw [dotFree, ← hgp]
  exact this

theorem mem_normParts (path p : String) (h : p ∈ normParts path) :
    p ≠ "" ∧ dotFree p := by
  rw [normParts] at h
  have h1 := List.mem_of_mem_filter h
  have h2 := List.of_mem_filter h
  refine ⟨by simpa using h2, mem_splitDots_dotFree path p h1⟩

theorem joinDots_cons₂ (p q : String) (rest : List String) :
    joinDots (p :: q :: rest) = p ++ "." ++ joinDots (q :: rest) := rfl

theorem joinDots_ne_empty (parts : List String) (h : parts ≠ [])
    (hne : ∀ s ∈ parts, s ≠ "") : joinDots parts ≠ "" := by
  rcases parts with _ | ⟨p, rest⟩
  · exact absurd rfl h
  · rcases rest with _ | ⟨q, rest'⟩
    · exact hne p (List.mem_cons_self p [])
    · rw [joinDots_cons₂]
      intro hcontra
      have : (p ++ "." ++ joinDots (q :: rest')).data = [] :=
        congrArg String.data hcontra
      rw [String.data_append, String.data_append] at this
      rcases List.append_eq_nil.1 this with ⟨h1, _⟩
      rcases List.append_eq_nil.1 h1 with ⟨_, h3⟩
      exact List.noConfusion h3

theorem joinDots_dropLast_getLast :
    ∀ (parts : List String) (h : parts ≠ []), 2 ≤ parts.length →
    joinDots parts = joinDots parts.dropLast ++ "." ++ parts.getLast h := by
  intro parts
  induction parts with
  | nil => intro h; exact absurd rfl h
  | cons p rest ih =>
    intro h hlen
    rcases rest with _ | ⟨q, rest'⟩
    · simp at hlen
    · rcases rest' with _ | ⟨r, rest''⟩
      · rfl
      · have hq : (q :: r :: rest'') ≠ [] := by simp
        have := ih hq (by simp)
        rw [joinDots_cons₂, this]
        have hdl : (p :: q :: r :: rest'').dropLast =
            p :: (q :: r :: rest'').dropLast := rfl
        rw [hdl]
        have hgl : (p :: q :: r :: rest'').getLast h =
            (q :: r :: rest'').getLast hq := by
          rw [List.getLast_cons]
        rw [hgl]
        rcases hdd : (q :: r :: rest'').dropLast with _ | ⟨d, ds⟩
        · exact absurd hdd (by simp)
        · rw [joinDots_cons₂]
          simp [String.append_assoc]

theorem fullPath_some (par f : String) (h : f ≠ "") :
    fullPath par (some f) = par ++ "." ++ f := by
  rw [fullPath, if_pos h]

/-! ### Grouping lemmas for the result-key theorem -/

theorem dictGet_some_mem {K V : Type} [DecidableEq K]
    (m : List (K × V)) (k : K) (v : V) (h : dictGet m k = some v) :
    (k, v) ∈ m := by
  induction m with
  | nil => exact Option.noConfusion h
  | cons p rest ih =>
    obtain ⟨k', v'⟩ := p
    rw [dictGet_cons] at h
    by_cases hk : k' = k
    · rw [if_pos hk] at h
      subst hk
      have hv : v' = v := Option.some.inj h
      subst hv
      exact List.mem_cons_self _ _
    · rw [if_neg hk] at h
      exact List.mem_cons_of_mem _ (ih h)

theorem mem_dictInsert {K V : Type} [DecidableEq K]
    (m : List (K × V)) (k : K) (v : V) (a : K × V)
    (h : a ∈ dictInsert m k v) : a = (k, v) ∨ a ∈ m := by
  induction m with
  | nil =>
    rw [dictInsert_nil] at h
    rcases List.mem_cons.1 h with h1 | h1
    · exact Or.inl h1
    · exact absurd h1 (List.not_mem_nil a)
  | cons p rest ih =>
    obtain ⟨k', v'⟩ := p
    rw [dictInsert_cons] at h
    by_cases hk : k' = k
    · rw [if_pos hk] at h
      rcases List.mem_cons.1 h with h1 | h1
      · exact Or.inl h1
      · exact Or.inr (List.mem_cons_of_mem _ h1)
    · rw [if_neg hk] at h
      rcases List.mem_cons.1 h with h1 | h1
      · exact Or.inr (h1 ▸ List.mem_cons_self _ _)
      · rcases ih h1 with h2 | h2
        · exact Or.inl h2
        · exact Or.inr (List.mem_cons_of_mem _ h2)

theorem groupPaths_nil : groupPaths [] = [] := rfl

theorem groupPaths_cons (g : String × List (Option String × PyVal))
    (G : List (String × List (Option String × PyVal))) :
    groupPaths (g :: G) =
      (g.2.map fun fv => fullPath g.1 fv.1) ++ groupPaths G := by
  rw [groupPaths, List.flatMap_cons]
  rfl

theorem groupPaths_append (G H : List (String × List (Option String × PyVal))) :
    groupPaths (G ++ H) = groupPaths G ++ groupPaths H := by
  rw [groupPaths, List.flatMap_append]
  rfl

theorem mem_groupPaths (G : List (String × List (Option String × PyVal)))
    (k : String) (i : List (Option String × PyVal))
    (fv : Option String × PyVal) (hG : (k, i) ∈ G) (hfv : fv ∈ i) :
    fullPath k fv.1 ∈ groupPaths G := by
  rw [groupPaths]
  rw [List.mem_flatMap]
  exact ⟨(k, i), hG, List.mem_map_of_mem _ hfv⟩

/-- Appending a fresh field slot to the group that `dictGet` finds adds
exactly that slot's full path to the multiset of group paths. -/
theorem groupPaths_extend (G : List (String × List (Option String × PyVal)))
    (parent : String) (inner : List (Option String × PyVal))
    (f : Option String) (v : PyVal)
    (hG : dictGet G parent = some inner) :
    (groupPaths (dictInsert G parent (inner ++ [(f, v)]))).Perm
      (fullPath parent f :: groupPaths G) := by
  induction G with
  | nil => exact Option.noConfusion hG
  | cons g rest ih =>
    obtain ⟨k, i⟩ := g
    rw [dictGet_cons] at hG
    by_cases hk : k = parent
    · rw [if_pos hk] at hG
      subst hk
      have hi : i = inner := Option.some.inj hG
      subst hi
      rw [dictInsert_cons, if_pos rfl, groupPaths_cons, groupPaths_cons]
      simp only [List.map_append, List.map_cons, List.map_nil]
      exact (List.perm_append_singleton _ _).append_right _
    · rw [if_neg hk] at hG
      rw [dictInsert_cons, if_neg hk, groupPaths_cons, groupPaths_cons]
      exact (List.Perm.append_left _ (ih hG)).trans List.perm_middle

theorem groupFold_paths :
    ∀ (rest : List (String × PyVal)) (processed : List String)
      (st : List (String × Bool) × List (String × List (Option String × PyVal))),
      (∀ q ∈ processed ++ rest.map Prod.fst,
        normParts q ≠ [] ∧ joinDots (normParts q) = q) →
      (processed ++ rest.map Prod.fst).Nodup →
      (∀ p ∈ processed ++ rest.map Prod.fst,
       ∀ q ∈ processed ++ rest.map Prod.fst,
        2 ≤ (normParts q).length → joinDots (normParts q).dropLast ≠ p) →
      st.1 = [] →
      (groupPaths st.2).Perm processed →
      GroupWf st.2 →
      (rest.foldl groupStep st).1 = [] ∧
      (groupPaths (rest.foldl groupStep st).2).Perm
        (processed ++ rest.map Prod.fst) ∧
      GroupWf (rest.foldl groupStep st).2 := by
  intro rest
  induction rest with
  | nil =>
    intro processed st hnorm hnodup hnopar h1 hperm hwf
    simp only [List.foldl_nil, List.map_nil, List.append_nil]
    exact ⟨h1, hperm, hwf⟩
  | cons pv rest ih =>
    intro processed st hnorm hnodup hnopar h1 hperm hwf
    obtain ⟨path, v⟩ := pv
    simp only [List.map_cons] at hnorm hnodup hnopar ⊢
    have hall : (processed ++ [path]) ++ rest.map Prod.fst =
        processed ++ path :: rest.map Prod.fst := by simp
    have hpathmem : path ∈ processed ++ path :: rest.map Prod.fst :=
      List.mem_append_right _ (List.mem_cons_self _ _)
    obtain ⟨hpne, hpjoin⟩ := hnorm path hpathmem
    have hpartsprops : ∀ s ∈ normParts path, s ≠ "" ∧ dotFree s :=
      fun s hs => mem_normParts path s hs
    have hpathne : path ≠ "" := by
      rw [← hpjoin]
      exact joinDots_ne_empty _ hpne fun s hs => (hpartsprops s hs).1
    have hpathnotproc : path ∉ processed := by
      intro hmem
      rw [List.nodup_append] at hnodup
      exact hnodup.2.2 hmem (List.mem_cons_self _ _)
    simp only [List.foldl_cons]
    by_cases hlen2 : 2 ≤ (normParts path).length
    · -- multi-segment path: grouped under the re-joined parent
      have hfieldm : (normParts path).getLast hpne ∈ normParts path :=
        List.getLast_mem hpne
      obtain ⟨hfne, hfdf⟩ := hpartsprops _ hfieldm
      have hpatheq : path =
          joinDots (normParts path).dropLast ++ "." ++
            (normParts path).getLast hpne := by
        have h := joinDots_dropLast_getLast (normParts path) hpne hlen2
        rw [hpjoin] at h
        exact h
      have hfull : fullPath (joinDots (normParts path).dropLast)
          (some ((normParts path).getLast hpne)) = path := by
        rw [fullPath_some _ _ hfne, ← hpatheq]
      have hstep : groupStep st (path, v) =
          (st.1, groupsInsert st.2 (joinDots (normParts path).dropLast)
            (some ((normParts path).getLast hpne)) v) := by
        rw [groupStep]
        simp only [hpathne, reduceIte, if_neg]
        rw [dif_neg hpne, if_pos hlen2]
      rw [hstep]
      -- the parent key is never a processed path
      have hparentnotproc : joinDots (normParts path).dropLast ∉ processed := by
        intro hmem
        exact hnopar (joinDots (normParts path).dropLast)
          (List.mem_append_left _ hmem) path hpathmem hlen2 rfl
      rcases hG : dictGet st.2 (joinDots (normParts path).dropLast) with _ | inner
      · -- fresh parent: a new group is appended
        have hgi : groupsInsert st.2 (joinDots (normParts path).dropLast)
            (some ((normParts path).getLast hpne)) v =
            st.2 ++ [(joinDots (normParts path).dropLast,
              [(some ((normParts path).getLast hpne), v)])] := by
          rw [groupsInsert, hG]

        rw [hgi]
        have hperm' : (groupPaths (st.2 ++
            [(joinDots (normParts path).dropLast,
              [(some ((normParts path).getLast hpne), v)])])).Perm
            (processed ++ [path]) := by
          rw [groupPaths_append]
          have : groupPaths [(joinDots (normParts path).dropLast,
              [(some ((normParts path).getLast hpne), v)])] = [path] := by
            rw [groupPaths_cons, groupPaths_nil]
            simp [hfull]
          rw [this]
          exact hperm.append (List.Perm.refl [path])
        have hwf' : GroupWf (st.2 ++
            [(joinDots (normParts path).dropLast,
              [(some ((normParts path).getLast hpne), v)])]) := by
          obtain ⟨hkeys, hgrps⟩ := hwf
          constructor
          · rw [List.map_append]
            rw [List.nodup_append]
            refine ⟨hkeys, by simp, ?_⟩
            intro a ha hb
            simp only [List.map_cons, List.map_nil, List.mem_cons,
              List.not_mem_nil, or_false] at hb
            subst hb
            exact absurd ((dictGet_eq_none_iff _ _).1 hG) (fun hh => hh ha)
          · intro g hg
            rcases List.mem_append.1 hg with hg1 | hg1
            · exact hgrps g hg1
            · simp only [List.mem_cons, List.not_mem_nil, or_false] at hg1
              subst hg1
              refine ⟨by simp, ?_, ?_⟩
              · intro fv hfv f hf
                simp only [List.mem_cons, List.not_mem_nil, or_false] at hfv
                subst hfv
                simp only at hf
                rw [Option.some.inj hf] at hfne hfdf
                exact ⟨hfne, hfdf⟩
              · intro w hw
                simp only [List.mem_cons, List.not_mem_nil, or_false] at hw
                exact absurd (congrArg Prod.fst hw) (by simp)
        have := ih (processed ++ [path])
          (st.1, st.2 ++ [(joinDots (normParts path).dropLast,
            [(some ((normParts path).getLast hpne), v)])])
          (by rw [hall]; exact hnorm)
          (by rw [hall]; exact hnodup)
          (by rw [hall]; exact hnopar)
          h1 hperm' hwf'
        rw [hall] at this
        exact this
      · -- existing parent group: the new field slot is appended to it
        have hinner_mem : (joinDots (normParts path).dropLast, inner) ∈ st.2 :=
          dictGet_some_mem _ _ _ hG
        -- the group found cannot contain the sentinel None
        have hnonone : ∀ w, (Option.none, w) ∉ inner := by
          intro w hw
          obtain ⟨w', hw'⟩ := (hwf.2 _ hinner_mem).2.2 w hw
          have hinner_eq : inner = [(Option.none, w')] := hw'
          have hmem : (Option.none, w') ∈ inner := by
            rw [hinner_eq]
            exact List.mem_cons_self _ _
          have : fullPath (joinDots (normParts path).dropLast) Option.none ∈
              groupPaths st.2 :=
            mem_groupPaths _ _ _ (Option.none, w') hinner_mem hmem
          rw [fullPath] at this
          exact hparentnotproc (hperm.mem_iff.1 this)
        -- the new field key is fresh in the group
        have hfresh : some ((normParts path).getLast hpne) ∉
            inner.map Prod.fst := by
          intro hmem
          obtain ⟨fv, hfv, hfv1⟩ := List.mem_map.1 hmem
          have : fullPath (joinDots (normParts path).dropLast) fv.1 ∈
              groupPaths st.2 := mem_groupPaths _ _ _ fv hinner_mem hfv
          rw [hfv1, hfull] at this
          exact hpathnotproc (hperm.mem_iff.1 this)
        have hgi0 : groupsInsert st.2 (joinDots (normParts path).dropLast)
            (some ((normParts path).getLast hpne)) v =
            dictInsert st.2 (joinDots (normParts path).dropLast)
              (dictInsert inner (some ((normParts path).getLast hpne)) v) := by
          rw [groupsInsert, hG]
        have hgi : groupsInsert st.2 (joinDots (normParts path).dropLast)
            (some ((normParts path).getLast hpne)) v =
            dictInsert st.2 (joinDots (normParts path).dropLast)
              (inner ++ [(some ((normParts path).getLast hpne), v)]) := by
          rw [hgi0, dictInsert_eq_append_of_not_mem inner _ v hfresh]
        rw [hgi]
        have hperm' : (groupPaths (dictInsert st.2
            (joinDots (normParts path).dropLast)
            (inner ++ [(some ((normParts path).getLast hpne), v)]))).Perm
            (processed ++ [path]) := by
          refine (groupPaths_extend st.2 _ inner _ v hG).trans ?_
          rw [hfull]
          exact ((hperm.cons path).trans
            (List.perm_append_singleton path processed).symm)
        have hwf' : GroupWf (dictInsert st.2 (joinDots (normParts path).dropLast)
            (inner ++ [(some ((normParts path).getLast hpne), v)])) := by
          obtain ⟨hkeys, hgrps⟩ := hwf
          constructor
          · rw [dictInsert_map_fst_of_mem]
            · exact hkeys
            · rw [← dictGet_isSome_iff, hG]
              rfl
          · intro g hg
            rcases mem_dictInsert _ _ _ g hg with hg1 | hg1
            · subst hg1
              obtain ⟨_, hflds, _⟩ := hgrps _ hinner_mem
              refine ⟨by simp, ?_, ?_⟩
              · intro fv hfv f hf
                rcases List.mem_append.1 hfv with hfv1 | hfv1
                · exact hflds fv hfv1 f hf
                · simp only [List.mem_cons, List.not_mem_nil, or_false] at hfv1
                  subst hfv1
                  simp only at hf
                  rw [Option.some.inj hf] at hfne hfdf
                  exact ⟨hfne, hfdf⟩
              · intro w hw
                rcases List.mem_append.1 hw with hw1 | hw1
                · exact absurd hw1 (hnonone w)
                · simp only [List.mem_cons, List.not_mem_nil, or_false] at hw1
                  exact absurd (congrArg Prod.fst hw1) (by simp)
            · exact hgrps g hg1
        have := ih (processed ++ [path])
          (st.1, dictInsert st.2 (joinDots (normParts path).dropLast)
            (inner ++ [(some ((normParts path).getLast hpne), v)]))
          (by rw [hall]; exact hnorm)
          (by rw [hall]; exact hnodup)
          (by rw [hall]; exact hnopar)
          h1 hperm' hwf'
        rw [hall] at this
        exact this
    · -- single-segment path: a fresh sentinel group keyed by the path itself
      have hone : normParts path = [path] := by
        rcases hp : normParts path with _ | ⟨s, srest⟩
        · exact absurd hp hpne
        · rcases srest with _ | ⟨s2, srest2⟩
          · rw [hp] at hpjoin
            rw [show joinDots [s] = s from rfl] at hpjoin
            rw [hpjoin]
          · rw [hp] at hlen2
            simp at hlen2
      have hpathdf : dotFree path := by
        have : path ∈ normParts path := by rw [hone]; exact List.mem_cons_self _ _
        exact (mem_normParts path path this).2
      have hstep : groupStep st (path, v) =
          (st.1, dictInsert st.2 path [(Option.none, v)]) := by
        rw [groupStep]
        simp only [hpathne, reduceIte, if_neg]
        rw [dif_neg hpne, if_neg hlen2]
      rw [hstep]
      -- the path key is fresh among the group keys
      have hfreshkey : path ∉ st.2.map Prod.fst := by
        intro hmem
        obtain ⟨g, hg, hg1⟩ := List.mem_map.1 hmem
        obtain ⟨hgne, hgflds, hgiso⟩ := hwf.2 g hg
        rcases hgfv : g.2 with _ | ⟨fv, fvrest⟩
        · exact hgne hgfv
        · have hfvmem : fv ∈ g.2 := hgfv ▸ List.mem_cons_self _ _
          have hfp : fullPath g.1 fv.1 ∈ groupPaths st.2 := by
            obtain ⟨gk, gi⟩ := g
            exact mem_groupPaths _ _ _ fv hg hfvmem
          rcases hfv1 : fv.1 with _ | f
          · -- sentinel group keyed by a processed path equal to `path`
            rw [hfv1, fullPath, hg1] at hfp
            exact hpathnotproc (hperm.mem_iff.1 hfp)
          · -- a field group: `path` would be the parent of a processed path
            obtain ⟨hf1, hf2⟩ := hgflds fv hfvmem f hfv1
            rw [hfv1, fullPath_some _ _ hf1, hg1] at hfp
            have hq : path ++ "." ++ f ∈ processed := hperm.mem_iff.1 hfp
            have hqn : normParts (path ++ "." ++ f) = [path, f] := by
              rw [normParts, splitDots_append_dot, splitDots_of_dotFree _ hpathdf,
                splitDots_of_dotFree _ hf2]
              simp [hpathne, hf1]
            have := hnopar path hpathmem (path ++ "." ++ f)
              (List.mem_append_left _ hq)
              (by rw [hqn]; simp)
            rw [hqn] at this
            exact this rfl
      have hdi : dictInsert st.2 path [(Option.none, v)] =
          st.2 ++ [(path, [(Option.none, v)])] :=
        dictInsert_eq_append_of_not_mem _ _ _ hfreshkey
      rw [hdi]
      have hperm' : (groupPaths (st.2 ++ [(path, [(Option.none, v)])])).Perm
          (processed ++ [path]) := by
        rw [groupPaths_append]
        have : groupPaths [(path, [(Option.none, v)])] = [path] := by
          rw [groupPaths_cons, groupPaths_nil]
          simp [fullPath]
        rw [this]
        exact hperm.append (List.Perm.refl [path])
      have hwf' : GroupWf (st.2 ++ [(path, [(Option.none, v)])]) := by
        obtain ⟨hkeys, hgrps⟩ := hwf
        constructor
        · rw [List.map_append, List.nodup_append]
          refine ⟨hkeys, by simp, ?_⟩
          intro a ha hb
          simp only [List.map_cons, List.map_nil, List.mem_cons,
            List.not_mem_nil, or_false] at hb
          subst hb
          exact hfreshkey ha
        · intro g hg
          rcases List.mem_append.1 hg with hg1 | hg1
          · exact hgrps g hg1
          · simp only [List.mem_cons, List.not_mem_nil, or_false] at hg1
            subst hg1
            refine ⟨by simp, ?_, ?_⟩
            · intro fv hfv f hf
              simp only [List.mem_cons, List.not_mem_nil, or_false] at hfv
              subst hfv
              exact absurd hf (by simp)
            · intro w hw
              exact ⟨v, rfl⟩
      have := ih (processed ++ [path])
        (st.1, st.2 ++ [(path, [(Option.none, v)])])
        (by rw [hall]; exact hnorm)
        (by rw [hall]; exact hnodup)
        (by rw [hall]; exact hnopar)
        h1 hperm' hwf'
      rw [hall] at this
      exact this

theorem foldl_dictInsert_mem {α K V : Type} [DecidableEq K]
    (key : α → K) (val : α → V) :
    ∀ (l : List α) (acc : List (K × V)),
      (∀ a ∈ l, key a ∈ acc.map Prod.fst) →
      (l.foldl (fun r a => dictInsert r (key a) (val a)) acc).map Prod.fst =
        acc.map Prod.fst := by
  intro l
  induction l with
  | nil => intro acc _; rfl
  | cons a rest ih =>
    intro acc h
    simp only [List.foldl_cons]
    have hkeys := dictInsert_map_fst_of_mem acc (key a) (val a)
      (h a (List.mem_cons_self a rest))
    rw [ih (dictInsert acc (key a) (val a)) ?_, hkeys]
    intro b hb
    rw [hkeys]
    exact h b (List.mem_cons_of_mem a hb)

/-- Shape of one array-branch field step: whatever the index lookup and
bounds check decide, exactly one result entry keyed
`parent.field` is written. -/
theorem arrayFieldStep_shape (cl : OpcClient) (ac : Bool) (par : String)
    (pnode : Nat) (arr : List PyVal) (res : List (String × Bool))
    (fv : Option String × PyVal) (f : String) (hf : fv.1 = some f) :
    ∃ (b : Bool) (arr' : List PyVal),
      arrayFieldStep cl ac par pnode (arr, res) fv =
        (arr', dictInsert res (par ++ "." ++ f) b) := by
  rcases hidx : get_array_field_index cl pnode f with _ | index
  · simp only [arrayFieldStep, hf, hidx]
    exact ⟨false, arr, rfl⟩
  · by_cases hle : arr.length ≤ index
    · simp only [arrayFieldStep, hf, hidx, if_pos hle]
      exact ⟨false, arr, rfl⟩
    · simp only [arrayFieldStep, hf, hidx, if_neg hle]
      exact ⟨true, _, rfl⟩

theorem arrayFieldStep_fold_keys (cl : OpcClient) (ac : Bool) (par : String)
    (pnode : Nat) :
    ∀ (fs : List (Option String × PyVal)) (arr : List PyVal)
      (res : List (String × Bool)),
      (∀ fv ∈ fs, ∀ f, fv.1 = some f → f ≠ "") →
      (∀ fv ∈ fs, fv.1 ≠ Option.none) →
      (∀ fv ∈ fs, fullPath par fv.1 ∉ res.map Prod.fst) →
      ((fs.map fun fv => fullPath par fv.1).Nodup) →
      ((fs.foldl (arrayFieldStep cl ac par pnode) (arr, res)).2).map Prod.fst =
        res.map Prod.fst ++ fs.map fun fv => fullPath par fv.1 := by
  intro fs
  induction fs with
  | nil => intro arr res _ _ _ _; simp
  | cons fv rest ih =>
    intro arr res hff hnn hfresh hnodup
    rcases hf : fv.1 with _ | f
    · exact absurd hf (hnn fv (List.mem_cons_self fv rest))
    · have hfne : f ≠ "" := hff fv (List.mem_cons_self fv rest) f hf
      have hfull : fullPath par fv.1 = par ++ "." ++ f := by
        rw [hf, fullPath_some _ _ hfne]
      obtain ⟨b, arr', hstep⟩ :=
        arrayFieldStep_shape cl ac par pnode arr res fv f hf
      simp only [List.foldl_cons, hstep]
      have hkeyfresh : par ++ "." ++ f ∉ res.map Prod.fst := by
        rw [← hfull]
        exact hfresh fv (List.mem_cons_self fv rest)
      have hkeys := dictInsert_map_fst_of_not_mem res (par ++ "." ++ f) b
        hkeyfresh
      simp only [List.map_cons, List.nodup_cons] at hnodup
      rw [ih arr' (dictInsert res (par ++ "." ++ f) b)
        (fun a ha g hg => hff a (List.mem_cons_of_mem fv ha) g hg)
        (fun a ha => hnn a (List.mem_cons_of_mem fv ha)) ?_ hnodup.2, hkeys]
      · simp [hfull]
      · intro a ha
        rw [hkeys]
        intro hmem
        rcases List.mem_append.1 hmem with h1 | h1
        · exact hfresh a (List.mem_cons_of_mem fv ha) h1
        · simp only [List.mem_cons, List.not_mem_nil, or_false] at h1
          rw [← hfull] at h1
          exact hnodup.1 (h1 ▸ List.mem_map_of_mem _ ha)

/-- One normal-branch field step writes exactly one result entry, keyed by
the field's full path. -/
theorem processField_keys (cl : OpcClient) (rootName : String) (ac : Bool)
    (par : String) (pnode : Nat)
    (acc : List (String × Bool) × List (Nat × Variant))
    (fv : Option String × PyVal)
    (hfresh : fullPath par fv.1 ∉ acc.1.map Prod.fst) :
    ((processField cl rootName ac par pnode acc fv).1).map Prod.fst =
      acc.1.map Prod.fst ++ [fullPath par fv.1] := by
  rw [processField]
  split
  · exact dictInsert_map_fst_of_not_mem _ _ _ hfresh
  · split
    · exact dictInsert_map_fst_of_not_mem _ _ _ hfresh
    · dsimp only
      split
      · exact dictInsert_map_fst_of_not_mem _ _ _ hfresh
      · exact dictInsert_map_fst_of_not_mem _ _ _ hfresh

theorem processField_fold_keys (cl : OpcClient) (rootName : String)
    (ac : Bool) (par : String) (pnode : Nat) :
    ∀ (fs : List (Option String × PyVal))
      (acc : List (String × Bool) × List (Nat × Variant)),
      (∀ fv ∈ fs, fullPath par fv.1 ∉ acc.1.map Prod.fst) →
      ((fs.map fun fv => fullPath par fv.1).Nodup) →
      ((fs.foldl (processField cl rootName ac par pnode) acc).1).map Prod.fst =
        acc.1.map Prod.fst ++ fs.map fun fv => fullPath par fv.1 := by
  intro fs
  induction fs with
  | nil => intro acc _ _; simp
  | cons fv rest ih =>
    intro acc hfresh hnodup
    simp only [List.foldl_cons]
    have hk := processField_keys cl rootName ac par pnode acc fv
      (hfresh fv (List.mem_cons_self fv rest))
    simp only [List.map_cons, List.nodup_cons] at hnodup
    rw [ih (processField cl rootName ac par pnode acc fv) ?_ hnodup.2, hk]
    · simp
    · intro a ha
      rw [hk]
      intro hmem
      rcases List.mem_append.1 hmem with h1 | h1
      · exact hfresh a (List.mem_cons_of_mem fv ha) h1
      · simp only [List.mem_cons, List.not_mem_nil, or_false] at h1
        exact hnodup.1 (h1 ▸ List.mem_map_of_mem _ ha)

theorem processGroup_keys (cl : OpcClient) (rootName : String) (ac : Bool)
    (acc : List (String × Bool) × List (Nat × Variant))
    (grp : String × List (Option String × PyVal))
    (hff : ∀ fv ∈ grp.2, ∀ f, fv.1 = some f → f ≠ "")
    (hiso : ∀ v, (Option.none, v) ∈ grp.2 → ∃ w, grp.2 = [(Option.none, w)])
    (hfresh : ∀ fv ∈ grp.2, fullPath grp.1 fv.1 ∉ acc.1.map Prod.fst)
    (hnodup : (grp.2.map fun fv => fullPath grp.1 fv.1).Nodup) :
    ((processGroup cl rootName ac acc grp).1).map Prod.fst =
      acc.1.map Prod.fst ++ grp.2.map fun fv => fullPath grp.1 fv.1 := by
  rw [processGroup]
  rcases find_node_by_path cl grp.1 rootName with _ | pnode
  · rw [foldl_dictInsert_fresh (fun fv => fullPath grp.1 fv.1)
      (fun _ => false) grp.2 acc.1 hfresh hnodup]
    simp
  · dsimp only
    split
    · next hcond =>
        have hlen2 : 2 ≤ grp.2.length := by
          simp only [Bool.and_eq_true, decide_eq_true_eq] at hcond
          exact hcond.1.2
        have hnn : ∀ fv ∈ grp.2, fv.1 ≠ Option.none := by
          intro fv hfv h0
          obtain ⟨w, hw⟩ := hiso fv.2 (by rw [← h0]; exact hfv)
          rw [hw] at hlen2
          simp at hlen2
        have hr := arrayFieldStep_fold_keys cl ac grp.1 pnode grp.2
          (match (cl.space pnode).value with
           | some (PyVal.list xs) => xs
           | _ => []) acc.1 hff hnn hfresh hnodup
        split
        · exact hr
        · rw [foldl_dictInsert_mem (fun fv => fullPath grp.1 fv.1)
            (fun _ => false) grp.2 _ ?_]
          · exact hr
          · intro fv hfv
            rw [hr]
            exact List.mem_append_right _ (List.mem_map_of_mem _ hfv)
    · next hcond =>
        exact processField_fold_keys cl rootName ac grp.1 pnode grp.2 acc
          hfresh hnodup

theorem processGroups_keys (cl : OpcClient) (rootName : String) (ac : Bool) :
    ∀ (G : List (String × List (Option String × PyVal)))
      (acc : List (String × Bool) × List (Nat × Variant)),
      (groupPaths G).Nodup →
      (∀ q ∈ groupPaths G, q ∉ acc.1.map Prod.fst) →
      (∀ g ∈ G, (∀ fv ∈ g.2, ∀ f, fv.1 = some f → f ≠ "") ∧
        (∀ v, (Option.none, v) ∈ g.2 → ∃ w, g.2 = [(Option.none, w)])) →
      ((G.foldl (processGroup cl rootName ac) acc).1).map Prod.fst =
        acc.1.map Prod.fst ++ groupPaths G := by
  intro G
  induction G with
  | nil => intro acc _ _ _; simp [groupPaths_nil]
  | cons g G ih =>
    intro acc hnodup hfresh hprops
    rw [groupPaths_cons] at hnodup hfresh ⊢
    rw [List.nodup_append] at hnodup
    simp only [List.foldl_cons]
    obtain ⟨hg1, hg2⟩ := hprops g (List.mem_cons_self g G)
    have hk := processGroup_keys cl rootName ac acc g hg1 hg2
      (fun fv hfv => hfresh _ (List.mem_append_left _
        (List.mem_map_of_mem _ hfv))) hnodup.1
    rw [ih (processGroup cl rootName ac acc g) ?_ ?_
      (fun g' hg' => hprops g' (List.mem_cons_of_mem g hg')), hk]
    · simp
    · exact hnodup.2.1
    · intro q hq
      rw [hk]
      intro hmem
      rcases List.mem_append.1 hmem with h1 | h1
      · exact hfresh q (List.mem_append_right _ hq) h1
      · exact hnodup.2.2 h1 hq

/-- C5 (amended).  For every write request whose paths are all normalized
(non-empty, no empty segments: each path is the dot-join of its non-empty
segments), whose keys are distinct, and in which no requested path is also
the re-joined parent of another multi-segment requested path, the returned
result has exactly one entry per originally-requested path string, keyed by
that original string and mapped to a boolean, produced even when the
path's write fails.  (Outside these conditions the code rewrites keys —
see the counterexample — or drops entries when a whole-value write and a
field write share a parent.) -/
theorem write_values_result_keys (cl : OpcClient)
    (data : List (String × PyVal)) (rootName : String) (ac : Bool)
    (hnorm : ∀ q ∈ data.map Prod.fst,
      normParts q ≠ [] ∧ joinDots (normParts q) = q)
    (hnodup : (data.map Prod.fst).Nodup)
    (hnopar : ∀ p ∈ data.map Prod.fst, ∀ q ∈ data.map Prod.fst,
      2 ≤ (normParts q).length → joinDots (normParts q).dropLast ≠ p) :
    (((write_values cl data rootName ac).1).map Prod.fst).Perm
      (data.map Prod.fst) := by
  obtain ⟨h1, hperm, hwf⟩ := groupFold_paths data [] ([], [])
    (by simpa using hnorm) (by simpa using hnodup) (by simpa using hnopar)
    rfl (by rw [groupPaths_nil]) ⟨List.nodup_nil, fun g hg => absurd hg (List.not_mem_nil g)⟩
  simp only [List.nil_append] at hperm
  rw [write_values]
  rw [h1]
  rw [processGroups_keys cl rootName ac (data.foldl groupStep ([], [])).2
    ([], []) (hperm.nodup_iff.2 hnodup) (by intro q _; simp)
    (fun g hg => ⟨fun fv hfv f hf => ((hwf.2 g hg).2.1 fv hfv f hf).1,
      (hwf.2 g hg).2.2⟩)]
  simpa using hperm

/-- Witness for the amended C5: three normalized paths (two sharing a
parent, one single-segment) on an address space where nothing resolves —
every requested path still keys exactly one (false) entry. -/
theorem write_values_result_keys_witness :
    (∀ q ∈ ([("plant.pump", PyVal.int 1), ("plant.valve", PyVal.int 2),
        ("status", PyVal.int 3)].map Prod.fst),
      normParts q ≠ [] ∧ joinDots (normParts q) = q) ∧
    (((write_values noResolveClient
        [("plant.pump", PyVal.int 1), ("plant.valve", PyVal.int 2),
         ("status", PyVal.int 3)] "Root" true).1).map Prod.fst).Perm
      ([("plant.pump", PyVal.int 1), ("plant.valve", PyVal.int 2),
        ("status", PyVal.int 3)].map Prod.fst) := by
  refine ⟨by decide, ?_⟩
  exact write_values_result_keys noResolveClient
    [("plant.pump", PyVal.int 1), ("plant.valve", PyVal.int 2),
     ("status", PyVal.int 3)] "Root" true (by decide) (by decide) (by decide)

end Opcua

